import Mathlib

set_option maxHeartbeats 1000000
set_option linter.unusedVariables false

/-!
Verification development for the hierarchical context-menu engine of
`batop` (`src/batop/context_menu.py`): the menu-tree builder
`ContextMenu.from_dict_of_dicts`, the placement clamper `open_menu`, the
close operations, the selection/hover state machine of `_MenuItem`, and
the key/mouse dispatchers.

Menus are modelled as an arena: the list of `ContextMenu` gadgets in the
order the builder generator yields them, addressed by list index.  All
recursion of the source (closing submenu chains, key forwarding) is
embedded with explicit fuel so that every definition evaluates by `rfl`
or `decide`; the id discipline of built trees (a menu's `_submenus` hold
only smaller ids) makes a fuel of `id + 1` always sufficient, which the
lemmas below track explicitly.
-/

namespace Batop

/-- A single menu item row (`_MenuItem` in `batop/context_menu.py`): a
label, an optional zero-argument callback (identified by a numeric id),
an optional reference to a submenu node (an index into the node arena),
and the `item_disabled` flag supplied by the button-behavior layer (the
builder never sets it, so built items always have it `false`). -/
structure MItem where
  label : String
  itemCallback : Option Nat
  submenu : Option Nat
  itemDisabled : Bool
deriving Repr, DecidableEq

/-- One `ContextMenu` gadget (`ContextMenu.__init__`): its menu items
(the `_MenuItem` gadget children added by the builder), the
`_parent_menu` back reference, the `_submenus` list, the `is_enabled`
flag (the open/closed state), the `_current_selection`, the gadget size
(rows, columns) and position (y, x) in grid cells. -/
structure PNode where
  items : List MItem
  parentMenu : Option Nat
  submenus : List Nat
  isEnabled : Bool
  currentSelection : Int
  heightN : Nat
  widthN : Nat
  posY : Int
  posX : Int
deriving Repr, DecidableEq

/-- A value of the builder specification dict (`MenuDict`): a callback, a
nested dict, or a value of any other Python type, carrying that type's
printed name (which is all the builder's error message uses of it). -/
inductive SpecVal where
  | cbV (id : Nat)
  | subV (entries : List (String × SpecVal))
  | otherV (tyName : String)
deriving Repr

/-- Errors raised while consuming the `from_dict_of_dicts` generator: the
TypeError raised for a value that is neither a callable nor a dict,
carrying the printed type of the offending value; the ValueError that
Python's max raises on an empty sequence when the specification dict has
no entries; and an out-of-fuel marker used only by the fueled embedding
(never produced when the fuel exceeds the nesting depth). -/
inductive BuildErr where
  | typeErrorGot (tyName : String)
  | emptyMaxValueError
  | outOfFuel
deriving Repr, DecidableEq

/-- Modelled from the spec: the display width of a label (`str_width`
from the external rendering library, grid cells of the rendered text);
for this development it is the string length. -/
def strWidth (s : String) : Nat := s.length

/-- Width contribution of one entry in `from_dict_of_dicts`:
label width + 2, plus 2 more when the value is a dict (room for the
nested-submenu indicator). -/
def entryWidth : String × SpecVal → Nat
  | (label, SpecVal.subV _) => strWidth label + 2 + 2
  | (label, _) => strWidth label + 2

/-- The width of the menu under construction: Python's max over the
per-entry widths (the empty-sequence ValueError is raised by the
caller before this fold is reached). -/
def menuWidth (m : List (String × SpecVal)) : Nat :=
  (m.map entryWidth).foldl Nat.max 0

/-- The entry loop of `from_dict_of_dicts` for one menu dict, structural
on the entry list: processes the entries in order, returning the nodes
yielded so far by nested builds, the `_MenuItem`s of the menu under
construction, and the ids appended to its `_submenus`.  `recurMenu`
builds a nested dict (the fueled builder one level down); `off` is the
id the next yielded node will receive.  A callable value produces a leaf
item; a dict value is built recursively (its direct root is the last
node it yields, which is what the owning item's `submenu` references,
and every yielded node's id lands in the owner's `_submenus`); any other
value raises the TypeError of the source, naming the value's type. -/
def buildItemsGo
    (recurMenu : Nat → List (String × SpecVal) → Except BuildErr (List PNode))
    (w : Nat) : Nat → List (String × SpecVal) →
    Except BuildErr (List PNode × List MItem × List Nat)
  | _, [] => .ok ([], [], [])
  | off, (label, .cbV cb) :: rest => do
      let r ← buildItemsGo recurMenu w off rest
      .ok (r.1, ⟨label, some cb, none, false⟩ :: r.2.1, r.2.2)
  | off, (label, .subV entries) :: rest => do
      let ys ← recurMenu off entries
      let childId := off + ys.length - 1
      let r ← buildItemsGo recurMenu w (off + ys.length) rest
      .ok (ys ++ r.1, ⟨label, none, some childId, false⟩ :: r.2.1,
           (List.range ys.length).map (off + ·) ++ r.2.2)
  | _, (_, .otherV ty) :: _ => .error (.typeErrorGot ty)

/-- Fueled embedding of `ContextMenu.from_dict_of_dicts`, consuming the
generator strictly; the fuel bounds the nesting depth and is never
exhausted when it exceeds it.  `off` is the id (yield position) of the
first node this call yields; the result is the complete yield order of
the call, the menu built for this dict coming last.  Mirroring the
source: an empty dict raises the max-of-empty-sequence ValueError; each
nested value is built recursively, and the owner appends every node
yielded by the recursive call to its own `_submenus`, stores itself into
each such node's `_parent_menu` (overwriting what the recursive call had
stored there) and disables it -- realized here as a map over the
recursive result, which applies exactly those final assignments. -/
def buildF : Nat → Nat → List (String × SpecVal) → Except BuildErr (List PNode)
  | 0, _, _ => .error .outOfFuel
  | fuel+1, off, m =>
      match m with
      | [] => .error .emptyMaxValueError
      | e :: es => do
          let r ← buildItemsGo (buildF fuel) (menuWidth (e :: es)) off (e :: es)
          let selfId := off + r.1.length
          let ns' := r.1.map fun nd =>
            { nd with parentMenu := some selfId, isEnabled := false }
          let selfNode : PNode :=
            { items := r.2.1, parentMenu := none, submenus := r.2.2,
              isEnabled := true, currentSelection := -1,
              heightN := (e :: es).length, widthN := menuWidth (e :: es),
              posY := 0, posX := 0 }
          .ok (ns' ++ [selfNode])

/-! ## Static accessors over the node arena -/

/-- The `_MenuItem` children of node `n` (empty for an id outside the
arena). -/
def itemsOf (T : List PNode) (n : Nat) : List MItem :=
  ((T.get? n).map PNode.items).getD []

/-- The `_submenus` list of node `n`. -/
def subsOf (T : List PNode) (n : Nat) : List Nat :=
  ((T.get? n).map PNode.submenus).getD []

/-- The `_parent_menu` reference of node `n`. -/
def parOf (T : List PNode) (n : Nat) : Option Nat :=
  (T.get? n).bind PNode.parentMenu

/-- The gadget width of node `n`. -/
def widthOf (T : List PNode) (n : Nat) : Nat :=
  ((T.get? n).map PNode.widthN).getD 0

/-- The gadget height of node `n`. -/
def heightOf (T : List PNode) (n : Nat) : Nat :=
  ((T.get? n).map PNode.heightN).getD 0

/-- The submenu reference of item `i` of node `n`. -/
def itemSubOf (T : List PNode) (n i : Nat) : Option Nat :=
  ((itemsOf T n).get? i).bind MItem.submenu

/-- The callback of item `i` of node `n`. -/
def itemCbOf (T : List PNode) (n i : Nat) : Option Nat :=
  ((itemsOf T n).get? i).bind MItem.itemCallback

/-- The `item_disabled` flag of item `i` of node `n` (an id or index
outside the arena counts as disabled; the source never reads one). -/
def itemDisabledOf (T : List PNode) (n i : Nat) : Bool :=
  (((itemsOf T n).get? i).map MItem.itemDisabled).getD true

/-- Global uniqueness of submenu ownership: no two items (of any nodes)
reference the same submenu.  True of every built arena, where each
yielded node is referenced exactly by the item constructed for the dict
entry that produced it. -/
def refsUniqueB (T : List PNode) : Bool :=
  (List.range T.length).all fun n1 =>
    (List.range (itemsOf T n1).length).all fun i1 =>
      (List.range T.length).all fun n2 =>
        (List.range (itemsOf T n2).length).all fun i2 =>
          match itemSubOf T n1 i1, itemSubOf T n2 i2 with
          | some c1, some c2 =>
              if c1 = c2 then decide (n1 = n2) && decide (i1 = i2) else true
          | _, _ => true

/-- Structural well-formedness of a node arena, as the builder produces
it: every `_submenus` entry has a smaller id than its owner (the
generator yields every submenu before the menu that owns it), every
`_parent_menu` reference points to a larger id inside the arena, every
item's submenu reference appears in its node's `_submenus`, and no two
items share a submenu. -/
def treeWF (T : List PNode) : Bool :=
  ((List.range T.length).all fun n =>
    ((subsOf T n).all fun m => decide (m < n)) &&
    (match parOf T n with
     | none => true
     | some p => decide (n < p) && decide (p < T.length)) &&
    ((itemsOf T n).all fun it =>
      match it.submenu with
      | none => true
      | some c => (subsOf T n).contains c)) &&
  refsUniqueB T

/-- No item of the arena is disabled (true of every built arena: the
builder has no way to express a disabled item). -/
def allItemsEnabled (T : List PNode) : Bool :=
  T.all fun nd => nd.items.all fun it => !it.itemDisabled

/-! ## Placement (`open_menu` position computation) -/

/-- The position computation of `ContextMenu.open_menu`: `parent` is the
`_parent_menu` data when present (its y, x, `_current_selection`, and
width); otherwise the node's own current position is the anchor.  `h`,
`w` are the node's size; `VH`, `VW` the hosting gadget's (viewport)
size.  Follows the source: a submenu anchors at the parent's selected
row and right edge, flipping to the parent's left edge when its right
edge would overflow; a root shifts left by the overflow; then the
vertical overflow shift and the floor clamps to zero. -/
def openMenuPos (parent : Option (Int × Int × Int × Nat))
    (selfY selfX : Int) (h w : Nat) (VH VW : Nat) : Int × Int :=
  let yx : Int × Int :=
    match parent with
    | some (py, px, psel, pw) =>
        let y := py + psel
        let x := px + (pw : Int)
        if x + (w : Int) > (VW : Int) then (y, px - (w : Int)) else (y, x)
    | none =>
        if selfX + (w : Int) > (VW : Int) then
          (selfY, selfX - (selfX + (w : Int) - (VW : Int)))
        else (selfY, selfX)
  let y := yx.1
  let x := yx.2
  let y := if y + (h : Int) > (VH : Int) then y - (y + (h : Int) - (VH : Int)) else y
  let y := if y < 0 then 0 else y
  let x := if x < 0 then 0 else x
  (y, x)

/-! ## Dynamic state and operations -/

/-- The mutable per-node interaction state: `is_enabled` (open),
`_current_selection`, the per-item hover highlight (`button_state`
being `"hover"`), and the gadget position.  The static structure
(items, `_submenus`, `_parent_menu`, sizes) lives in the arena `T` and
is never mutated after construction. -/
structure DState where
  enb : Nat → Bool
  sel : Nat → Int
  hov : Nat → Nat → Bool
  py : Nat → Int
  px : Nat → Int

/-- The state immediately after the builder ran: each node carries the
dynamic fields it was constructed with. -/
def initState (T : List PNode) : DState where
  enb n := ((T.get? n).map PNode.isEnabled).getD false
  sel n := ((T.get? n).map PNode.currentSelection).getD (-1)
  hov _ _ := false
  py n := ((T.get? n).map PNode.posY).getD 0
  px n := ((T.get? n).map PNode.posX).getD 0

def setEnb (s : DState) (n : Nat) (b : Bool) : DState :=
  { s with enb := fun k => if k = n then b else s.enb k }

def setSel (s : DState) (n : Nat) (v : Int) : DState :=
  { s with sel := fun k => if k = n then v else s.sel k }

def setHov (s : DState) (n i : Nat) (b : Bool) : DState :=
  { s with hov := fun k j => if k = n ∧ j = i then b else s.hov k j }

/-- Reset the button state of every item of node `n` (the loop at the
end of `close_menu`; the `update_normal` hooks it triggers only repaint,
since the selection was just cleared and the submenus just closed). -/
def clearHovRow (s : DState) (n : Nat) : DState :=
  { s with hov := fun k j => if k = n then false else s.hov k j }

def setPos (s : DState) (n : Nat) (y x : Int) : DState :=
  { s with py := fun k => if k = n then y else s.py k,
           px := fun k => if k = n then x else s.px k }

/-- `ContextMenu.open_menu` (state effect): recompute the position from
the `_parent_menu` reference and the viewport, then enable the menu
(the pull-to-front z-order change is display-only). -/
def openMenuS (T : List PNode) (VH VW : Nat) (s : DState) (n : Nat) : DState :=
  let parent := (parOf T n).map fun p => (s.py p, s.px p, s.sel p, widthOf T p)
  let yx := openMenuPos parent (s.py n) (s.px n) (heightOf T n) (widthOf T n) VH VW
  setEnb (setPos s n yx.1 yx.2) n true

/-- One unfolding of `ContextMenu.close_menu`: disable the menu, reset
its selection, close every menu in its `_submenus` list in order
(through `recur`, the one-lower-fuel close), and reset every item's
button state (whose `update_normal` hooks only repaint here, since the
selection was just cleared and the submenus just closed). -/
def closeMenuStep (T : List PNode) (recur : DState → Nat → DState)
    (s : DState) (n : Nat) : DState :=
  let s := setSel (setEnb s n false) n (-1)
  let s := (subsOf T n).foldl (fun s' m => recur s' m) s
  clearHovRow s n

/-- `ContextMenu.close_menu`, fueled on the recursion depth: in a
well-formed arena the `_submenus` ids are strictly below the owner's id,
so fuel `n + 1` always suffices. -/
def closeMenuF (T : List PNode) : Nat → DState → Nat → DState
  | 0, s, _ => s
  | fuel+1, s, n => closeMenuStep T (closeMenuF T fuel) s n

/-- `close_menu` with its always-sufficient fuel. -/
def closeMenu (T : List PNode) (s : DState) (n : Nat) : DState :=
  closeMenuF T (n + 1) s n

/-- `close_submenus`: close every menu in `_submenus` in order without
closing the node itself (fuel `n` suffices for each member: their ids
are below `n`). -/
def closeSubmenus (T : List PNode) (s : DState) (n : Nat) : DState :=
  (subsOf T n).foldl (fun s' m => closeMenuF T n s' m) s

/-- `close_parents`, fueled on the parent chain (each `_parent_menu` of
a well-formed arena points to a strictly larger id inside the arena, so
`T.length + 1` steps always suffice). -/
def closeParentsF (T : List PNode) : Nat → DState → Nat → DState
  | 0, s, _ => s
  | fuel+1, s, n =>
      match parOf T n with
      | none => closeMenu T s n
      | some p => closeParentsF T fuel s p

/-- `close_parents` with its always-sufficient fuel. -/
def closeParents (T : List PNode) (s : DState) (n : Nat) : DState :=
  closeParentsF T (T.length + 1) s n

/-- `_MenuItem.update_hover` for item `i` of its owning menu `n` (the
item's gadget parent), entered through the button-state change to
hover: repaint (tracked as the hover flag); if a different index was
selected, close the menu's submenus and reset that item's button state;
record the new selection; open this item's submenu if it has one. -/
def updateHover (T : List PNode) (VH VW : Nat) (s : DState) (n i : Nat) : DState :=
  let s := setHov s n i true
  let selected := s.sel n
  let s :=
    if selected ≠ -1 ∧ selected ≠ (i : Int) then
      setHov (closeSubmenus T s n) n selected.toNat false
    else s
  let s := setSel s n (i : Int)
  match itemSubOf T n i with
  | some c => openMenuS T VH VW s c
  | none => s

/-- The hover-switch path of `update_hover`: when a different index was
selected, close this menu's submenus and reset the previously selected
item's button state (abbreviation for stating the split form). -/
def hoverSwitchAux (T : List PNode) (s : DState) (n i : Nat) : DState :=
  setHov (closeSubmenus T (setHov s n i true) n) n (s.sel n).toNat false

/-- `_MenuItem.update_normal` for item `i` of menu `n`, entered through
the button-state change to normal: repaint (hover flag cleared); if the
item has no submenu or its submenu is closed, clear the menu selection
when it still points at this item; otherwise close the submenu unless
the pointer's last known position is inside it (`inside` abstracts the
`collides_point` test on `_last_mouse_pos`). -/
def updateNormal (T : List PNode) (s : DState) (n i : Nat) (inside : Bool) : DState :=
  let s := setHov s n i false
  match itemSubOf T n i with
  | none => if s.sel n = (i : Int) then setSel s n (-1) else s
  | some c =>
      if s.enb c = false then
        if s.sel n = (i : Int) then setSel s n (-1) else s
      else if !inside then closeMenu T s c
      else s

/-- `_MenuItem.on_release` for item `i` of menu `n`: open the submenu if
the item has one; otherwise invoke the item callback if there is one and
close the whole parent chain.  Returns the new state and the callbacks
invoked. -/
def onReleaseS (T : List PNode) (VH VW : Nat) (s : DState) (n i : Nat) :
    DState × List Nat :=
  match itemSubOf T n i with
  | some c => (openMenuS T VH VW s c, [])
  | none =>
      match itemCbOf T n i with
      | some cb => (closeParents T s n, [cb])
      | none => (s, [])

/-- `_MenuItem.on_release` in the presence of failing callbacks:
`cbFail` maps a callback id to the exception it raises, if any.  The
middle component is the propagated exception; the first is the state the
caller observes afterwards.  The source performs no state mutation
before the `self.item_callback()` call, so a raise leaves the state
exactly as it was and `close_parents` is skipped. -/
def onReleaseExc (T : List PNode) (VH VW : Nat) (cbFail : Nat → Option String)
    (s : DState) (n i : Nat) : DState × Option String × List Nat :=
  match itemSubOf T n i with
  | some c => (openMenuS T VH VW s c, none, [])
  | none =>
      match itemCbOf T n i with
      | some cb =>
          match cbFail cb with
          | some e => (s, some e, [cb])
          | none => (closeParents T s n, none, [cb])
      | none => (s, none, [])

/-! ## Key handling -/

/-- The keys the engine inspects; `otherK` stands for every other key
(handled by the superclass, which does not consume). -/
inductive MKey where
  | up | down | left | right | enter | otherK
deriving Repr, DecidableEq

/-- The circular scan of the up/down handlers: starting at index `i`,
step (by the direction's successor function, Python-modulo the item
count) past disabled items; the loop body runs at most once per item
(`for _ in self.children`), which the fuel counts. -/
def scanF (items : List MItem) (stepIdx : Nat → Nat) : Nat → Nat → Option Nat
  | _, 0 => none
  | i, fuel+1 =>
      if (((items.get? i).map MItem.itemDisabled).getD true) then
        scanF items stepIdx (stepIdx i) fuel
      else some i

/-- The shared body of the `up`/`down` branches of `ContextMenu.on_key`:
scan from `start`; on success record the selection, run the found item's
hover update (its `_hover` raises the button state, dispatching
`update_hover`), close this menu's submenus, and consume.  On failure
(every scanned item disabled) leave the selection untouched and do not
consume. -/
def upDownLocal (T : List PNode) (VH VW : Nat) (s : DState) (n : Nat)
    (stepIdx : Nat → Nat) (start : Nat) : DState × Bool :=
  match scanF (itemsOf T n) stepIdx start (itemsOf T n).length with
  | some i =>
      let s := setSel s n (i : Int)
      let s := updateHover T VH VW s n i
      (closeSubmenus T s n, true)
  | none => (s, false)

/-- The local (post-forwarding) part of `ContextMenu.on_key`: the
up/down circular scans (starting just past the current selection, or at
an end of the list when there is none, resetting the previously selected
item's button state first), left (close the selected item's open
submenu), right (open the selected item's closed submenu, hover its
first item -- if it has any -- and close its submenus), enter (release a
selected submenu-less item); anything else falls to the superclass
handler, which does not consume.  Returns (state, consumed, callbacks
invoked). -/
def onKeyLocal (T : List PNode) (VH VW : Nat) (s : DState) (n : Nat) (k : MKey) :
    DState × Bool × List Nat :=
  let len := (itemsOf T n).length
  match k with
  | .up =>
      let r :=
        if s.sel n = -1 then
          upDownLocal T VH VW s n (fun i => (i + len - 1) % len) (len - 1)
        else
          let i0 := (s.sel n).toNat
          upDownLocal T VH VW (setHov s n i0 false) n
            (fun i => (i + len - 1) % len) ((i0 + len - 1) % len)
      (r.1, r.2, [])
  | .down =>
      let r :=
        if s.sel n = -1 then
          upDownLocal T VH VW s n (fun i => (i + 1) % len) 0
        else
          let i0 := (s.sel n).toNat
          upDownLocal T VH VW (setHov s n i0 false) n
            (fun i => (i + 1) % len) ((i0 + 1) % len)
      (r.1, r.2, [])
  | .left =>
      if s.sel n ≠ -1 then
        match itemSubOf T n (s.sel n).toNat with
        | some c => if s.enb c then (closeMenu T s c, true, []) else (s, false, [])
        | none => (s, false, [])
      else (s, false, [])
  | .right =>
      if s.sel n ≠ -1 then
        match itemSubOf T n (s.sel n).toNat with
        | some c =>
            if s.enb c then (s, false, [])
            else
              let s := openMenuS T VH VW s c
              let s :=
                if (itemsOf T c).length ≠ 0 then
                  closeSubmenus T (updateHover T VH VW s c 0) c
                else s
              (s, true, [])
        | none => (s, false, [])
      else (s, false, [])
  | .enter =>
      if s.sel n ≠ -1 ∧ itemSubOf T n (s.sel n).toNat = none then
        let r := onReleaseS T VH VW s n (s.sel n).toNat
        (r.1, true, r.2)
      else (s, false, [])
  | .otherK => (s, false, [])

/-- `ContextMenu.on_key`, fueled: forward to the first enabled menu of
the `_submenus` list; a consumed forward propagates, a non-consumed one
breaks out to local handling at this node (on the state the forwarded
handler may already have changed).  In a well-formed arena the
`_submenus` ids are strictly below the caller's id, so fuel `n + 1`
always suffices. -/
def onKeyF (T : List PNode) (VH VW : Nat) : Nat → DState → Nat → MKey →
    DState × Bool × List Nat
  | 0, s, _, _ => (s, false, [])
  | fuel+1, s, n, k =>
      match (subsOf T n).find? (fun m => s.enb m) with
      | some m =>
          let r := onKeyF T VH VW fuel s m k
          if r.2.1 then r else onKeyLocal T VH VW r.1 n k
      | none => onKeyLocal T VH VW s n k

/-- `on_key` with its always-sufficient fuel. -/
def onKey (T : List PNode) (VH VW : Nat) (s : DState) (n : Nat) (k : MKey) :
    DState × Bool × List Nat :=
  onKeyF T VH VW (n + 1) s n k

/-! ## Mouse dispatch (root special case) -/

/-- The kinds of mouse events the dispatcher distinguishes. -/
inductive METype where
  | down | upE | move
deriving Repr, DecidableEq

/-- Whether the absolute position (y, x) lies on item `i` of menu `n`
(`collides_point` of the `_MenuItem`): the grid layout stacks the items
as single rows, so item `i` occupies row `posY n + i`, columns `posX n`
up to but excluding `posX n + width n`. -/
def collidesItem (T : List PNode) (s : DState) (n i : Nat) (y x : Int) : Bool :=
  decide (y = s.py n + (i : Int) ∧ s.px n ≤ x ∧ x < s.px n + (widthOf T n : Int))

/-- `ContextMenu.dispatch_mouse`, the root-only special case: on a
mouse-down at a position that collides with no item of any enabled menu
in `_submenus`, close the menu and report the event as not consumed
(`some false`).  Anything else falls through to the superclass dispatch,
reported here as `none`.  Note that the collision scan ranges over the
enabled `_submenus` only: the root's own items are never examined. -/
def dispatchMouseS (T : List PNode) (s : DState) (n : Nat) (ty : METype)
    (y x : Int) : DState × Option Bool :=
  if (parOf T n).isNone && (ty == .down) &&
      !((subsOf T n).any fun m =>
          s.enb m &&
            ((List.range (itemsOf T m).length).any fun i =>
              collidesItem T s m i y x)) then
    (closeMenu T s n, some false)
  else (s, none)

/-! ## Events and reachability -/

/-- The events the engine consumes, per the interface the spec fixes
(section 4.4 / 6): the owning widget positioning and opening or closing
the root; a key event delivered to an open menu gadget; the pointer
entering or leaving an item (the hover transitions the hit-testing layer
dispatches, `inside` abstracting whether the pointer's last position is
inside the item's open submenu); a release on a pressed item; and a
mouse press routed through the root's `dispatch_mouse`. -/
inductive MEvent where
  | openRoot (y x : Int)
  | closeRoot
  | key (n : Nat) (k : MKey)
  | hoverEnter (n i : Nat)
  | hoverLeave (n i : Nat) (inside : Bool)
  | release (n i : Nat)
  | press (ty : METype) (y x : Int)

/-- The state transition of one event (callback logs dropped; the root
is the last node the builder yields). -/
def stepEv (T : List PNode) (VH VW : Nat) (s : DState) : MEvent → DState
  | .openRoot y x => openMenuS T VH VW (setPos s (T.length - 1) y x) (T.length - 1)
  | .closeRoot => closeMenu T s (T.length - 1)
  | .key n k => (onKey T VH VW s n k).1
  | .hoverEnter n i => updateHover T VH VW s n i
  | .hoverLeave n i inside => updateNormal T s n i inside
  | .release n i => (onReleaseS T VH VW s n i).1
  | .press ty y x => (dispatchMouseS T s (T.length - 1) ty y x).1

/-- Validity of an event in a state, the guarantees of the surrounding
input layer: key events reach only enabled gadgets; hover-enter fires
when the pointer moves onto an item of a visible (enabled) menu;
release fires on the item the pointer pressed, which the hit-testing
layer has hovered first, so the selection is on it. -/
def validEv (T : List PNode) (s : DState) : MEvent → Prop
  | .openRoot _ _ => True
  | .closeRoot => True
  | .key n _ => n < T.length ∧ s.enb n = true
  | .hoverEnter n i => n < T.length ∧ s.enb n = true ∧ i < (itemsOf T n).length
  | .hoverLeave n i _ => n < T.length ∧ i < (itemsOf T n).length
  | .release n i =>
      n < T.length ∧ s.enb n = true ∧ i < (itemsOf T n).length ∧ s.sel n = (i : Int)
  | .press _ _ _ => True

/-- The states reachable from the built arena by valid events. -/
inductive Reach (T : List PNode) (VH VW : Nat) : DState → Prop
  | init : Reach T VH VW (initState T)
  | step {s e} : Reach T VH VW s → validEv T s e → Reach T VH VW (stepEv T VH VW s e)

/-! ## Concrete fixtures for scenario and counterexample theorems -/

/-- The depth-3 specification A → B → C. -/
def specABC : List (String × SpecVal) :=
  [("A", SpecVal.subV [("B", SpecVal.subV [("C", SpecVal.cbV 0)])])]

/-- A single menu whose items are disabled, disabled, enabled (the
navigation fixture of the spec; disabled items cannot be produced by the
builder, so the node is laid out directly in the arena format). -/
def T5c : List PNode :=
  [{ items := [⟨"a", some 0, none, true⟩, ⟨"b", some 1, none, true⟩,
               ⟨"c", some 2, none, false⟩],
     parentMenu := none, submenus := [], isEnabled := true,
     currentSelection := -1, heightN := 3, widthN := 5, posY := 0, posX := 0 }]

/-- The state after one `down` key on the fixture `T5c`. -/
def s5c1 : DState := (onKeyLocal T5c 20 20 (initState T5c) 0 .down).1

/-- A two-node arena: node 1 (the root) owns node 0 through its only
item; node 0 has a disabled first item and an enabled second item. -/
def T9c : List PNode :=
  [{ items := [⟨"p", some 0, none, true⟩, ⟨"q", some 1, none, false⟩],
     parentMenu := some 1, submenus := [], isEnabled := false,
     currentSelection := -1, heightN := 2, widthN := 5, posY := 0, posX := 0 },
   { items := [⟨"A", none, some 0, false⟩],
     parentMenu := none, submenus := [0], isEnabled := true,
     currentSelection := -1, heightN := 1, widthN := 5, posY := 0, posX := 0 }]

/-- `T9c` with the root's selection on its submenu-owning item. -/
def s9c : DState := setSel (initState T9c) 1 0

/-- The single-leaf tree built from a one-item specification. -/
def T3c : List PNode := ((buildF 2 0 [("a", SpecVal.cbV 0)]).toOption).getD []

/-- `T3c` opened at the origin inside a 20 by 20 viewport. -/
def S3c : DState := stepEv T3c 20 20 (initState T3c) (.openRoot 0 0)

/-- The single-leaf tree whose item callback is id 7. -/
def T8c : List PNode := ((buildF 2 0 [("a", SpecVal.cbV 7)]).toOption).getD []

/-- The two-level tree File → Open of the activation scenario. -/
def T6c : List PNode :=
  ((buildF 3 0 [("File", SpecVal.subV [("Open", SpecVal.cbV 1)])]).toOption).getD []

/-- `T6c` opened at the origin in a 20 by 20 viewport. -/
def s6c0 : DState := stepEv T6c 20 20 (initState T6c) (.openRoot 0 0)

/-- ... then a `down` key (selects "File"). -/
def s6c1 : DState := stepEv T6c 20 20 s6c0 (.key 1 .down)

/-- ... then a `right` key (opens the File submenu, selecting "Open"). -/
def s6c2 : DState := stepEv T6c 20 20 s6c1 (.key 1 .right)

/-- The tree built from the depth-3 specification A → B → C. -/
def TABC : List PNode := ((buildF 3 0 specABC).toOption).getD []

/-! ## Invariants -/

/-- The chain invariant, strengthened for the induction: whenever the
submenu owned by item `i` of node `n` is open, its owner `n` is open and
`n`'s selection is on `i`. -/
def Inv1 (T : List PNode) (s : DState) : Prop :=
  ∀ n i c, itemSubOf T n i = some c → s.enb c = true →
    s.enb n = true ∧ s.sel n = (i : Int)

/-- Selection validity: every node's selection is -1 or a valid index of
a non-disabled item. -/
def Inv2 (T : List PNode) (s : DState) : Prop :=
  ∀ n, n < T.length →
    s.sel n = -1 ∨
      (0 ≤ s.sel n ∧ s.sel n < ((itemsOf T n).length : Int) ∧
       itemDisabledOf T n (s.sel n).toNat = false)

/-! ## Build invariants -/

/-- Shape of a completed `from_dict_of_dicts` run yielded at offset
`off`: the list is nonempty and ends with the dict's own menu; every
node starts with selection -1; exactly the last node is enabled; every
other node's parent reference is the last node; `_submenus` entries sit
between the offset and their owner's id; items are never disabled and
their submenu references land in their node's `_submenus` within the
same bounds; the last node's `_submenus` is the full range of earlier
yields; and no two items of any nodes reference the same submenu. -/
def BuiltOK (off : Nat) (ns : List PNode) : Prop :=
  ns ≠ [] ∧
  (∀ k nd, ns.get? k = some nd →
    nd.currentSelection = -1 ∧
    (nd.isEnabled = true ↔ k = ns.length - 1) ∧
    nd.parentMenu = (if k = ns.length - 1 then none
                     else some (off + ns.length - 1)) ∧
    (∀ m ∈ nd.submenus, off ≤ m ∧ m < off + k) ∧
    (∀ it ∈ nd.items, it.itemDisabled = false) ∧
    (∀ i it, nd.items.get? i = some it → ∀ c, it.submenu = some c →
      c ∈ nd.submenus ∧ off ≤ c ∧ c < off + k)) ∧
  (∀ nd, ns.get? (ns.length - 1) = some nd →
    nd.submenus = (List.range (ns.length - 1)).map (off + ·)) ∧
  (∀ k1 nd1 i1 it1 k2 nd2 i2 it2 c,
    ns.get? k1 = some nd1 → nd1.items.get? i1 = some it1 →
    it1.submenu = some c →
    ns.get? k2 = some nd2 → nd2.items.get? i2 = some it2 →
    it2.submenu = some c → k1 = k2 ∧ i1 = i2)

/-- Shape of the entry loop's intermediate result: the accumulated
`_submenus` ids are exactly the range of the nodes yielded so far; the
yielded nodes carry the bounded-reference facts (their parent and open
flags are irrelevant here, the caller overwrites both); the items built
so far are never disabled and reference only yielded block roots, with
distinct items referencing distinct submenus and no item sharing a
submenu with any yielded node's items. -/
def ItemsOK (off : Nat) (ns : List PNode) (its : List MItem)
    (ss : List Nat) : Prop :=
  ss = (List.range ns.length).map (off + ·) ∧
  (∀ k nd, ns.get? k = some nd →
    nd.currentSelection = -1 ∧
    (∀ m ∈ nd.submenus, off ≤ m ∧ m < off + k) ∧
    (∀ it ∈ nd.items, it.itemDisabled = false) ∧
    (∀ i it, nd.items.get? i = some it → ∀ c, it.submenu = some c →
      c ∈ nd.submenus ∧ off ≤ c ∧ c < off + k)) ∧
  (∀ i it, its.get? i = some it → it.itemDisabled = false ∧
    ∀ c, it.submenu = some c → c ∈ ss ∧ off ≤ c ∧ c < off + ns.length) ∧
  (∀ i1 it1 i2 it2 c, its.get? i1 = some it1 → it1.submenu = some c →
    its.get? i2 = some it2 → it2.submenu = some c → i1 = i2) ∧
  (∀ i it c, its.get? i = some it → it.submenu = some c →
    ∀ k nd i2 it2, ns.get? k = some nd → nd.items.get? i2 = some it2 →
      ¬ it2.submenu = some c) ∧
  (∀ k1 nd1 i1 it1 k2 nd2 i2 it2 c,
    ns.get? k1 = some nd1 → nd1.items.get? i1 = some it1 →
    it1.submenu = some c →
    ns.get? k2 = some nd2 → nd2.items.get? i2 = some it2 →
    it2.submenu = some c → k1 = k2 ∧ i1 = i2)

/-! ## C4: viewport containment of `open_menu` -/

/-- C4, counterexample to the claim as stated: opening a submenu of size
1 by 10 (component-wise within the 20 by 20 viewport) whose parent menu
sits at x = 25 takes the horizontal flip branch and lands at x = 15,
whose right edge 15 + 10 = 25 exceeds the viewport width 20.  The
claimed containment `x + width <= viewport.width` fails. -/
theorem open_menu_containment_counterexample :
    ((1 : Nat) ≤ 20 ∧ (10 : Nat) ≤ 20) ∧
    openMenuPos (some (0, 25, 0, 5)) 0 0 1 10 20 20 = (0, 15) ∧
    ¬ ((openMenuPos (some (0, 25, 0, 5)) 0 0 1 10 20 20).2 + (10 : Int) ≤ (20 : Int)) := by
  decide

/-- C4 (amended): every `open_menu` placement of a node whose size fits
the viewport component-wise lies fully inside the viewport, provided
that, when the node is a submenu, its parent menu's x position does not
exceed the viewport width (true of every parent the engine itself
placed); and the spec scenario: a root of size (4, 10) anchored at
(18, 18) in a (20, 20) viewport lands at (16, 10). -/
theorem open_menu_containment (parent : Option (Int × Int × Int × Nat))
    (selfY selfX : Int) (h w VH VW : Nat)
    (hh : h ≤ VH) (hw : w ≤ VW)
    (hp : ∀ py px psel pw, parent = some (py, px, psel, pw) → px ≤ (VW : Int)) :
    (0 ≤ (openMenuPos parent selfY selfX h w VH VW).1 ∧
     0 ≤ (openMenuPos parent selfY selfX h w VH VW).2 ∧
     (openMenuPos parent selfY selfX h w VH VW).1 + (h : Int) ≤ (VH : Int) ∧
     (openMenuPos parent selfY selfX h w VH VW).2 + (w : Int) ≤ (VW : Int)) ∧
    openMenuPos none 18 18 4 10 20 20 = (16, 10) := by
  refine ⟨?_, by decide⟩
  have hh' : (h : Int) ≤ (VH : Int) := by exact_mod_cast hh
  have hw' : (w : Int) ≤ (VW : Int) := by exact_mod_cast hw
  rcases parent with _ | ⟨py, px, psel, pw⟩
  · simp only [openMenuPos]
    split_ifs <;> refine ⟨?_, ?_, ?_, ?_⟩ <;> omega
  · have hpx := hp py px psel pw rfl
    simp only [openMenuPos]
    split_ifs <;> refine ⟨?_, ?_, ?_, ?_⟩ <;> omega

/-- C4 witness: the amended containment theorem applied to the concrete
scenario input (root, size 4 by 10, anchor (18, 18), viewport 20 by
20). -/
theorem open_menu_containment_witness :
    (0 ≤ (openMenuPos none 18 18 4 10 20 20).1 ∧
     0 ≤ (openMenuPos none 18 18 4 10 20 20).2 ∧
     (openMenuPos none 18 18 4 10 20 20).1 + (4 : Int) ≤ (20 : Int) ∧
     (openMenuPos none 18 18 4 10 20 20).2 + (10 : Int) ≤ (20 : Int)) ∧
    openMenuPos none 18 18 4 10 20 20 = (16, 10) :=
  open_menu_containment none 18 18 4 10 20 20 (by decide) (by decide)
    (fun _ _ _ _ h => by cases h)

/-! ## C7: builder error behavior -/

/-- C7, counterexample to the claim as stated: the error raised for a
non-callable, non-dict value is the TypeError carrying only the value's
type -- specifications differing only in the offending label produce the
very same error, so the error does not identify the label -- and the
empty specification raises the max-of-empty-sequence ValueError, a
different error kind from the bad-value TypeError. -/
theorem build_error_counterexample :
    buildF 1 0 [("A", SpecVal.otherV "int")] = .error (.typeErrorGot "int") ∧
    buildF 1 0 [("B", SpecVal.otherV "int")] = .error (.typeErrorGot "int") ∧
    buildF 1 0 ([] : List (String × SpecVal)) = .error .emptyMaxValueError ∧
    BuildErr.emptyMaxValueError ≠ BuildErr.typeErrorGot "int" := by
  refine ⟨rfl, rfl, rfl, by decide⟩

/-- C7 (amended): building from a specification whose value is neither a
callback nor a nested dict fails with the TypeError naming the value's
type (for any label, the error being independent of the label), while
building from an empty specification fails with the ValueError of taking
max of an empty sequence -- a different error kind. -/
theorem build_error_kinds (label other : String) (ty : String) (fuel : Nat) :
    buildF (fuel + 1) 0 [(label, SpecVal.otherV ty)] = .error (.typeErrorGot ty) ∧
    buildF (fuel + 1) 0 [(label, SpecVal.otherV ty)]
      = buildF (fuel + 1) 0 [(other, SpecVal.otherV ty)] ∧
    buildF (fuel + 1) 0 ([] : List (String × SpecVal)) = .error .emptyMaxValueError ∧
    ∀ t, BuildErr.emptyMaxValueError ≠ BuildErr.typeErrorGot t := by
  refine ⟨rfl, rfl, rfl, fun t h => by cases h⟩

/-! ## C8: failing activation callbacks -/

/-- C8: when the selected leaf item's callback raises, `on_release`
propagates the failure unsuppressed and performs no state change at all:
`close_parents` does not run, and the caller observes exactly the state
from before the activation (the source performs no mutation before the
`self.item_callback()` call). -/
theorem callback_failure_propagates (T : List PNode) (VH VW : Nat)
    (cbFail : Nat → Option String) (s : DState) (n i cb : Nat) (e : String)
    (hsub : itemSubOf T n i = none) (hcb : itemCbOf T n i = some cb)
    (hf : cbFail cb = some e) :
    onReleaseExc T VH VW cbFail s n i = (s, some e, [cb]) := by
  simp [onReleaseExc, hsub, hcb, hf]

/-- C8 witness: the failing-callback theorem applied to the concrete
one-leaf tree `T8c` with a callback that raises. -/
theorem callback_failure_propagates_witness :
    itemSubOf T8c 0 0 = none ∧ itemCbOf T8c 0 0 = some 7 ∧
    (fun _ : Nat => some "boom") 7 = some "boom" ∧
    onReleaseExc T8c 20 20 (fun _ => some "boom") (initState T8c) 0 0
      = (initState T8c, some "boom", [7]) :=
  ⟨rfl, rfl, rfl,
    callback_failure_propagates T8c 20 20 (fun _ => some "boom")
      (initState T8c) 0 0 7 "boom" rfl rfl rfl⟩

/-! ## C3: the root mouse-down special case -/

/-- C3 (code bug): on the tree built from a one-item specification, with
the root open at the origin, a mouse-down at (0, 1) collides with the
open root's own item, yet `dispatch_mouse` closes the whole tree and
reports the event not consumed: its collision scan ranges only over the
items of enabled submenus and never examines the root's own items, so a
press on a root item is treated as an outside click (which also makes
root items unactivatable by mouse, contradicting the purpose of
`_MenuItem.on_release`). -/
theorem press_on_root_item_closes_tree :
    S3c.enb 0 = true ∧
    collidesItem T3c S3c 0 0 0 1 = true ∧
    (dispatchMouseS T3c S3c 0 .down 0 1).2 = some false ∧
    (dispatchMouseS T3c S3c 0 .down 0 1).1.enb 0 = false := by
  refine ⟨rfl, rfl, rfl, rfl⟩

/-! ## C2: parent back-references of built trees (counterexample) -/

/-- C2, counterexample to the claim as stated: building the depth-3
specification A → B → C yields nodes in the order C-menu (id 0), B-menu
(id 1), root (id 2).  Node 1's item references node 0 as its submenu, so
node 1 is node 0's direct owner; yet node 0's `_parent_menu` is node 2,
the root -- the generator loop of `from_dict_of_dicts` re-assigns the
parent of every re-yielded descendant.  The parent back-reference of a
depth-3 submenu does not point to the node that owns it. -/
theorem parent_backref_counterexample :
    (buildF 3 0 specABC).toOption.map
        (fun ns => (itemSubOf ns 1 0, parOf ns 0)) = some (some 0, some 2) ∧
    (2 : Nat) ≠ 1 := by
  refine ⟨rfl, by decide⟩

/-! ## C5 and C9 counterexamples -/

/-- C5, counterexample to the claimed scenario: on the fixture with
items disabled, disabled, enabled and no selection, a `down` selects
index 2 and consumes; a further `down` wraps, re-finds index 2 -- the
scan starts just past the selection and examines one full period --
re-selects it and reports the event consumed, not not-consumed as
claimed. -/
theorem up_down_wrap_counterexample :
    treeWF T5c = true ∧
    (onKeyLocal T5c 20 20 (initState T5c) 0 .down).1.sel 0 = 2 ∧
    (onKeyLocal T5c 20 20 (initState T5c) 0 .down).2.1 = true ∧
    (onKeyLocal T5c 20 20 s5c1 0 .down).1.sel 0 = 2 ∧
    (onKeyLocal T5c 20 20 s5c1 0 .down).2.1 = true := by
  refine ⟨rfl, rfl, rfl, rfl, rfl⟩

/-- C9, counterexample to the claim as stated: a `right` key on the root
of `T9c` (selection on its submenu-owning item, submenu closed) opens
the submenu and moves the submenu's selection to its first item, index
0, even though that item is disabled; the claimed target -- the first
enabled item, index 1 -- is not selected. -/
theorem right_selects_disabled_counterexample :
    treeWF T9c = true ∧
    itemDisabledOf T9c 0 0 = true ∧ itemDisabledOf T9c 0 1 = false ∧
    (onKeyLocal T9c 20 20 s9c 1 .right).2.1 = true ∧
    (onKeyLocal T9c 20 20 s9c 1 .right).1.enb 0 = true ∧
    (onKeyLocal T9c 20 20 s9c 1 .right).1.sel 0 = 0 ∧
    (0 : Int) ≠ 1 := by
  refine ⟨rfl, rfl, rfl, rfl, rfl, rfl, by decide⟩

/-! ## State-update lemmas -/

theorem setEnb_enb (s : DState) (n : Nat) (b : Bool) (k : Nat) :
    (setEnb s n b).enb k = if k = n then b else s.enb k := rfl
theorem setEnb_sel (s : DState) (n : Nat) (b : Bool) : (setEnb s n b).sel = s.sel := rfl
theorem setEnb_hov (s : DState) (n : Nat) (b : Bool) : (setEnb s n b).hov = s.hov := rfl
theorem setSel_sel (s : DState) (n : Nat) (v : Int) (k : Nat) :
    (setSel s n v).sel k = if k = n then v else s.sel k := rfl
theorem setSel_enb (s : DState) (n : Nat) (v : Int) : (setSel s n v).enb = s.enb := rfl
theorem setSel_hov (s : DState) (n : Nat) (v : Int) : (setSel s n v).hov = s.hov := rfl
theorem setHov_hov (s : DState) (n i : Nat) (b : Bool) (k j : Nat) :
    (setHov s n i b).hov k j = if k = n ∧ j = i then b else s.hov k j := rfl
theorem setHov_enb (s : DState) (n i : Nat) (b : Bool) : (setHov s n i b).enb = s.enb := rfl
theorem setHov_sel (s : DState) (n i : Nat) (b : Bool) : (setHov s n i b).sel = s.sel := rfl
theorem clearHovRow_hov (s : DState) (n : Nat) (k j : Nat) :
    (clearHovRow s n).hov k j = if k = n then false else s.hov k j := rfl
theorem clearHovRow_enb (s : DState) (n : Nat) : (clearHovRow s n).enb = s.enb := rfl
theorem clearHovRow_sel (s : DState) (n : Nat) : (clearHovRow s n).sel = s.sel := rfl
theorem setPos_enb (s : DState) (n : Nat) (y x : Int) : (setPos s n y x).enb = s.enb := rfl
theorem setPos_sel (s : DState) (n : Nat) (y x : Int) : (setPos s n y x).sel = s.sel := rfl
theorem setPos_hov (s : DState) (n : Nat) (y x : Int) : (setPos s n y x).hov = s.hov := rfl
theorem openMenuS_enb (T : List PNode) (VH VW : Nat) (s : DState) (c k : Nat) :
    (openMenuS T VH VW s c).enb k = if k = c then true else s.enb k := rfl
theorem openMenuS_sel (T : List PNode) (VH VW : Nat) (s : DState) (c : Nat) :
    (openMenuS T VH VW s c).sel = s.sel := rfl
theorem openMenuS_hov (T : List PNode) (VH VW : Nat) (s : DState) (c : Nat) :
    (openMenuS T VH VW s c).hov = s.hov := rfl

/-! ## Accessor lemmas -/

theorem itemsOf_eq_nil_of_le {T : List PNode} {n : Nat} (h : T.length ≤ n) :
    itemsOf T n = [] := by
  simp [itemsOf, List.getElem?_eq_none h]

theorem subsOf_eq_nil_of_le {T : List PNode} {n : Nat} (h : T.length ≤ n) :
    subsOf T n = [] := by
  simp [subsOf, List.getElem?_eq_none h]

theorem parOf_eq_none_of_le {T : List PNode} {n : Nat} (h : T.length ≤ n) :
    parOf T n = none := by
  simp [parOf, List.getElem?_eq_none h]

theorem itemSubOf_bounds {T : List PNode} {n i c : Nat}
    (h : itemSubOf T n i = some c) : n < T.length ∧ i < (itemsOf T n).length := by
  rcases Option.bind_eq_some.mp h with ⟨it, hit, _⟩
  have hi : i < (itemsOf T n).length := by
    by_contra hle
    rw [List.get?_eq_none.mpr (Nat.le_of_not_lt hle)] at hit
    cases hit
  refine ⟨?_, hi⟩
  by_contra hn
  rw [itemsOf_eq_nil_of_le (Nat.le_of_not_lt hn)] at hi
  cases hi

/-! ## Extraction from `treeWF` -/

theorem wf_subs_lt {T : List PNode} (hw : treeWF T = true) :
    ∀ n m, m ∈ subsOf T n → m < n := by
  intro n m hm
  rw [treeWF, Bool.and_eq_true] at hw
  by_cases hn : n < T.length
  · have h1 := hw.1
    rw [List.all_eq_true] at h1
    have h2 := h1 n (List.mem_range.mpr hn)
    rw [Bool.and_eq_true, Bool.and_eq_true] at h2
    have h3 := h2.1.1
    rw [List.all_eq_true] at h3
    simpa using h3 m hm
  · rw [subsOf_eq_nil_of_le (Nat.le_of_not_lt hn)] at hm
    cases hm

theorem wf_par {T : List PNode} (hw : treeWF T = true) :
    ∀ n p, parOf T n = some p → n < p ∧ p < T.length := by
  intro n p hp
  rw [treeWF, Bool.and_eq_true] at hw
  by_cases hn : n < T.length
  · have h1 := hw.1
    rw [List.all_eq_true] at h1
    have h2 := h1 n (List.mem_range.mpr hn)
    rw [Bool.and_eq_true, Bool.and_eq_true] at h2
    have h3 := h2.1.2
    rw [hp] at h3
    simp only [Bool.and_eq_true, decide_eq_true_eq] at h3
    exact h3
  · rw [parOf_eq_none_of_le (Nat.le_of_not_lt hn)] at hp
    cases hp

theorem wf_refs {T : List PNode} (hw : treeWF T = true) :
    ∀ n i c, itemSubOf T n i = some c → c ∈ subsOf T n := by
  intro n i c h
  have hb := itemSubOf_bounds h
  rw [treeWF, Bool.and_eq_true] at hw
  have h1 := hw.1
  rw [List.all_eq_true] at h1
  have h2 := h1 n (List.mem_range.mpr hb.1)
  rw [Bool.and_eq_true] at h2
  have h3 := h2.2
  rw [List.all_eq_true] at h3
  rcases Option.bind_eq_some.mp h with ⟨it, hit, hsub⟩
  have hmem : it ∈ itemsOf T n := List.get?_mem hit
  have h4 := h3 it hmem
  rw [hsub] at h4
  simpa using h4

theorem wf_ref_lt {T : List PNode} (hw : treeWF T = true) :
    ∀ n i c, itemSubOf T n i = some c → c < n :=
  fun n i c h => wf_subs_lt hw n c (wf_refs hw n i c h)

theorem wf_uniq {T : List PNode} (hw : treeWF T = true) :
    ∀ n1 i1 n2 i2 c, itemSubOf T n1 i1 = some c → itemSubOf T n2 i2 = some c →
      n1 = n2 ∧ i1 = i2 := by
  intro n1 i1 n2 i2 c h1 h2
  have hb1 := itemSubOf_bounds h1
  have hb2 := itemSubOf_bounds h2
  rw [treeWF, Bool.and_eq_true] at hw
  have hu := hw.2
  rw [refsUniqueB, List.all_eq_true] at hu
  have g1 := hu n1 (List.mem_range.mpr hb1.1)
  rw [List.all_eq_true] at g1
  have g2 := g1 i1 (List.mem_range.mpr hb1.2)
  rw [List.all_eq_true] at g2
  have g3 := g2 n2 (List.mem_range.mpr hb2.1)
  rw [List.all_eq_true] at g3
  have g4 := g3 i2 (List.mem_range.mpr hb2.2)
  rw [h1, h2] at g4
  simpa using g4

/-! ## Generic fold preservation -/

theorem foldl_pres {f : DState → Nat → DState} {P : DState → Prop}
    (l : List Nat) (s : DState) (hP : P s)
    (hf : ∀ s' m, m ∈ l → P s' → P (f s' m)) :
    P (l.foldl f s) := by
  induction l generalizing s with
  | nil => exact hP
  | cons m rest ih =>
      exact ih (f s m) (hf s m (List.mem_cons_self m rest) hP)
        (fun s' m' hm' hp => hf s' m' (List.mem_cons_of_mem _ hm') hp)

/-! ## `closeMenuF` lemmas -/

theorem closeMenuF_unfold (T : List PNode) (fuel : Nat) (s : DState) (n : Nat) :
    closeMenuF T (fuel + 1) s n =
      clearHovRow
        ((subsOf T n).foldl (fun s' m => closeMenuF T fuel s' m)
          (setSel (setEnb s n false) n (-1))) n := rfl

/-- Closing never opens a menu. -/
theorem closeMenuF_enb_mono (T : List PNode) :
    ∀ fuel n s k, (closeMenuF T fuel s n).enb k = true → s.enb k = true := by
  intro fuel
  induction fuel with
  | zero => exact fun n s k h => h
  | succ fuel ih =>
      intro n s k h
      rw [closeMenuF_unfold, clearHovRow_enb] at h
      refine (foldl_pres (P := fun t => t.enb k = true → s.enb k = true)
        (subsOf T n) _ ?_ ?_) h
      · intro hb
        rw [setSel_enb, setEnb_enb] at hb
        by_cases hkn : k = n
        · simp [hkn] at hb
        · simpa [hkn] using hb
      · exact fun s' m hm hP h' => hP (ih m s' k h')

/-- Closing either preserves a selection or resets it to -1. -/
theorem closeMenuF_sel_cases (T : List PNode) :
    ∀ fuel n s k, (closeMenuF T fuel s n).sel k = s.sel k ∨
      (closeMenuF T fuel s n).sel k = -1 := by
  intro fuel
  induction fuel with
  | zero => exact fun n s k => Or.inl rfl
  | succ fuel ih =>
      intro n s k
      rw [closeMenuF_unfold, clearHovRow_sel]
      refine foldl_pres (P := fun t => t.sel k = s.sel k ∨ t.sel k = -1)
        (subsOf T n) _ ?_ ?_
      · show (setSel (setEnb s n false) n (-1)).sel k = s.sel k ∨
          (setSel (setEnb s n false) n (-1)).sel k = -1
        simp only [setSel_sel, setEnb_sel]
        by_cases hkn : k = n
        · simp [hkn]
        · simp [hkn]
      · intro s' m hm hP
        rcases ih m s' k with h | h
        · rw [h]; exact hP
        · exact Or.inr h

/-- Closing never raises a hover highlight. -/
theorem closeMenuF_hov_mono (T : List PNode) :
    ∀ fuel n s k j, (closeMenuF T fuel s n).hov k j = true → s.hov k j = true := by
  intro fuel
  induction fuel with
  | zero => exact fun n s k j h => h
  | succ fuel ih =>
      intro n s k j h
      rw [closeMenuF_unfold] at h
      rw [clearHovRow_hov] at h
      by_cases hkn : k = n
      · simp [hkn] at h
      · rw [if_neg hkn] at h
        refine (foldl_pres (P := fun t => t.hov k j = true → s.hov k j = true)
          (subsOf T n) _ ?_ ?_) h
        · intro hb
          rw [setSel_hov, setEnb_hov] at hb
          exact hb
        · exact fun s' m hm hP h' => hP (ih m s' k j h')

/-- When submenu ids strictly decrease, closing node `n` leaves every
node with a larger id untouched. -/
theorem closeMenuF_frame (T : List PNode)
    (hsub : ∀ a b, b ∈ subsOf T a → b < a) :
    ∀ fuel n s k, n < k →
      (closeMenuF T fuel s n).enb k = s.enb k ∧
      (closeMenuF T fuel s n).sel k = s.sel k ∧
      ∀ j, (closeMenuF T fuel s n).hov k j = s.hov k j := by
  intro fuel
  induction fuel with
  | zero => exact fun n s k _ => ⟨rfl, rfl, fun j => rfl⟩
  | succ fuel ih =>
      intro n s k hnk
      have hkn : k ≠ n := Nat.ne_of_gt hnk
      rw [closeMenuF_unfold, clearHovRow_enb, clearHovRow_sel]
      have hfold := foldl_pres
        (P := fun t => t.enb k = s.enb k ∧ t.sel k = s.sel k ∧
          ∀ j, t.hov k j = s.hov k j)
        (subsOf T n) (setSel (setEnb s n false) n (-1))
        (by show (setSel (setEnb s n false) n (-1)).enb k = s.enb k ∧
              (setSel (setEnb s n false) n (-1)).sel k = s.sel k ∧
              ∀ j, (setSel (setEnb s n false) n (-1)).hov k j = s.hov k j
            simp [setSel_sel, setSel_enb, setEnb_enb, setEnb_sel,
              setSel_hov, setEnb_hov, if_neg hkn])
        (fun s' m hm hP => by
          have hmk : m < k := Nat.lt_trans (hsub n m hm) hnk
          have h := ih m s' k hmk
          exact ⟨h.1.trans hP.1, h.2.1.trans hP.2.1,
            fun j => (h.2.2 j).trans (hP.2.2 j)⟩)
      refine ⟨hfold.1, hfold.2.1, fun j => ?_⟩
      rw [clearHovRow_hov, if_neg hkn]
      exact hfold.2.2 j

/-- With at least one unit of fuel, closing node `n` disables it and
resets its selection. -/
theorem closeMenuF_closes (T : List PNode) :
    ∀ fuel n s, 1 ≤ fuel →
      (closeMenuF T fuel s n).enb n = false ∧
      (closeMenuF T fuel s n).sel n = -1 := by
  intro fuel n s hf
  match fuel, hf with
  | fuel+1, _ =>
    rw [closeMenuF_unfold, clearHovRow_enb, clearHovRow_sel]
    refine foldl_pres (P := fun t => t.enb n = false ∧ t.sel n = -1)
      (subsOf T n) _ ?_ ?_
    · show (setSel (setEnb s n false) n (-1)).enb n = false ∧
        (setSel (setEnb s n false) n (-1)).sel n = -1
      simp [setSel_sel, setSel_enb, setEnb_enb, setEnb_sel]
    · intro s' m hm hP
      constructor
      · cases hE : (closeMenuF T fuel s' m).enb n
        · rfl
        · exact absurd (closeMenuF_enb_mono T fuel m s' n hE) (by simp [hP.1])
      · rcases closeMenuF_sel_cases T fuel m s' n with h | h
        · rw [h]; exact hP.2
        · exact h

/-- Closing a list of menus closes every member (the `close_submenus`
loops). -/
theorem closeList_closes (T : List PNode) (fuelI : Nat) (hf : 1 ≤ fuelI) :
    ∀ (l : List Nat) (s0 : DState), ∀ m ∈ l,
      ((l.foldl (fun s' m' => closeMenuF T fuelI s' m') s0).enb m = false ∧
       (l.foldl (fun s' m' => closeMenuF T fuelI s' m') s0).sel m = -1) := by
  intro l
  induction l with
  | nil => intro s0 m hm; cases hm
  | cons m' rest ih =>
      intro s0 m hm
      rw [List.foldl_cons]
      rcases List.mem_cons.mp hm with rfl | hmr
      · have h0 := closeMenuF_closes T fuelI m s0 hf
        refine foldl_pres (P := fun t => t.enb m = false ∧ t.sel m = -1)
          rest _ h0 ?_
        intro s' m'' hm'' hP
        constructor
        · cases hE : (closeMenuF T fuelI s' m'').enb m
          · rfl
          · exact absurd (closeMenuF_enb_mono T fuelI m'' s' m hE) (by simp [hP.1])
        · rcases closeMenuF_sel_cases T fuelI m'' s' m with h | h
          · rw [h]; exact hP.2
          · exact h
      · exact ih (closeMenuF T fuelI s0 m') m hmr

/-- With fuel at least 2, closing node `n` also closes every menu in its
`_submenus`. -/
theorem closeMenuF_closes_subs (T : List PNode) :
    ∀ fuel n s, 2 ≤ fuel → ∀ m ∈ subsOf T n,
      (closeMenuF T fuel s n).enb m = false ∧
      (closeMenuF T fuel s n).sel m = -1 := by
  intro fuel n s hf m hm
  match fuel, hf with
  | fuel+1, hf =>
    rw [closeMenuF_unfold, clearHovRow_enb, clearHovRow_sel]
    exact closeList_closes T fuel (by omega) (subsOf T n) _ m hm

/-- If a fold of closes changed node `k`'s open flag or selection, and
each single close has the touch-closes-submenus property, then `k`'s
`_submenus` all end closed. -/
theorem foldl_touch_helper (T : List PNode) (fuelI : Nat) :
    ∀ (l : List Nat),
      (∀ m' ∈ l, ∀ s k,
        ¬((closeMenuF T fuelI s m').enb k = s.enb k ∧
          (closeMenuF T fuelI s m').sel k = s.sel k) →
        ∀ m ∈ subsOf T k, (closeMenuF T fuelI s m').enb m = false) →
      ∀ (s0 : DState) (k : Nat),
      ¬(((l.foldl (fun s' m' => closeMenuF T fuelI s' m') s0).enb k = s0.enb k) ∧
        ((l.foldl (fun s' m' => closeMenuF T fuelI s' m') s0).sel k = s0.sel k)) →
      ∀ m ∈ subsOf T k,
        (l.foldl (fun s' m' => closeMenuF T fuelI s' m') s0).enb m = false := by
  intro l
  induction l with
  | nil => intro H s0 k htouch m hm; exact absurd ⟨rfl, rfl⟩ htouch
  | cons m' rest ih =>
      intro H s0 k htouch m hm
      rw [List.foldl_cons] at htouch ⊢
      by_cases h1 : (closeMenuF T fuelI s0 m').enb k = s0.enb k ∧
          (closeMenuF T fuelI s0 m').sel k = s0.sel k
      · refine ih (fun a ha => H a (List.mem_cons_of_mem _ ha)) _ k ?_ m hm
        intro hc
        exact htouch ⟨hc.1.trans h1.1, hc.2.trans h1.2⟩
      · have hsubs := H m' (List.mem_cons_self _ _) s0 k h1 m hm
        refine foldl_pres (P := fun t => t.enb m = false) rest _ hsubs ?_
        intro s' m'' hm'' hP
        cases hE : (closeMenuF T fuelI s' m'').enb m
        · rfl
        · exact absurd (closeMenuF_enb_mono T fuelI m'' s' m hE) (by simp [hP])

/-- If closing node `n` (adequate fuel, submenu ids decreasing) changed
node `k`'s open flag or selection, every menu in `k`'s `_submenus` is
closed in the result: a change at `k` means the recursion visited `k`,
and a visit closes `k`'s whole `_submenus` list. -/
theorem closeMenuF_touch (T : List PNode)
    (hsub : ∀ a b, b ∈ subsOf T a → b < a) :
    ∀ n fuel, n < fuel → ∀ s k,
      ¬((closeMenuF T fuel s n).enb k = s.enb k ∧
        (closeMenuF T fuel s n).sel k = s.sel k) →
      ∀ m ∈ subsOf T k, (closeMenuF T fuel s n).enb m = false := by
  intro n
  induction n using Nat.strong_induction_on with
  | _ n IH =>
      intro fuel hfuel s k htouch m hm
      match fuel, hfuel with
      | fuel+1, hfuel =>
        by_cases hkn : k = n
        · subst hkn
          have hmk := hsub k m hm
          exact (closeMenuF_closes_subs T (fuel+1) k s (by omega) m hm).1
        · rw [closeMenuF_unfold, clearHovRow_enb, clearHovRow_sel] at htouch
          rw [closeMenuF_unfold, clearHovRow_enb]
          have hs0e : (setSel (setEnb s n false) n (-1)).enb k = s.enb k := by
            simp [setSel_enb, setEnb_enb, hkn]
          have hs0s : (setSel (setEnb s n false) n (-1)).sel k = s.sel k := by
            simp [setSel_sel, setEnb_sel, hkn]
          refine foldl_touch_helper T fuel (subsOf T n) ?_ _ k ?_ m hm
          · intro m' hm' s' k' ht'
            have h1 := hsub n m' hm'
            exact IH m' h1 fuel (by omega) s' k' ht'
          · intro hc
            exact htouch ⟨hc.1.trans hs0e, hc.2.trans hs0s⟩

/-! ## `closeSubmenus` corollaries -/

theorem closeSubmenus_enb_mono (T : List PNode) (s : DState) (n k : Nat) :
    (closeSubmenus T s n).enb k = true → s.enb k = true := by
  intro h
  refine (foldl_pres (P := fun t => t.enb k = true → s.enb k = true)
    (subsOf T n) s (fun hh => hh) ?_) h
  exact fun s' m hm hP h' => hP (closeMenuF_enb_mono T n m s' k h')

theorem closeSubmenus_sel_cases (T : List PNode) (s : DState) (n k : Nat) :
    (closeSubmenus T s n).sel k = s.sel k ∨ (closeSubmenus T s n).sel k = -1 := by
  refine foldl_pres (P := fun t => t.sel k = s.sel k ∨ t.sel k = -1)
    (subsOf T n) s (Or.inl rfl) ?_
  intro s' m hm hP
  rcases closeMenuF_sel_cases T n m s' k with h | h
  · rw [h]; exact hP
  · exact Or.inr h

theorem closeSubmenus_hov_mono (T : List PNode) (s : DState) (n k j : Nat) :
    (closeSubmenus T s n).hov k j = true → s.hov k j = true := by
  intro h
  refine (foldl_pres (P := fun t => t.hov k j = true → s.hov k j = true)
    (subsOf T n) s (fun hh => hh) ?_) h
  exact fun s' m hm hP h' => hP (closeMenuF_hov_mono T n m s' k j h')

/-- `close_submenus` closes every menu in the `_submenus` list. -/
theorem closeSubmenus_members (T : List PNode)
    (hsub : ∀ a b, b ∈ subsOf T a → b < a) (s : DState) (n : Nat) :
    ∀ m ∈ subsOf T n, (closeSubmenus T s n).enb m = false ∧
      (closeSubmenus T s n).sel m = -1 := by
  intro m hm
  have := hsub n m hm
  exact closeList_closes T n (by omega) (subsOf T n) s m hm

/-- `close_submenus` of node `n` leaves `n` and every larger id
untouched. -/
theorem closeSubmenus_frame_ge (T : List PNode)
    (hsub : ∀ a b, b ∈ subsOf T a → b < a) (s : DState) (n k : Nat)
    (hk : n ≤ k) :
    (closeSubmenus T s n).enb k = s.enb k ∧
    (closeSubmenus T s n).sel k = s.sel k ∧
    ∀ j, (closeSubmenus T s n).hov k j = s.hov k j := by
  refine foldl_pres (P := fun t => t.enb k = s.enb k ∧ t.sel k = s.sel k ∧
    ∀ j, t.hov k j = s.hov k j) (subsOf T n) s ⟨rfl, rfl, fun j => rfl⟩ ?_
  intro s' m hm hP
  have hmk : m < k := Nat.lt_of_lt_of_le (hsub n m hm) hk
  have h := closeMenuF_frame T hsub n m s' k hmk
  exact ⟨h.1.trans hP.1, h.2.1.trans hP.2.1, fun j => (h.2.2 j).trans (hP.2.2 j)⟩

/-- If `close_submenus` of node `n` changed node `k`'s open flag or
selection, every menu in `k`'s `_submenus` is closed in the result. -/
theorem closeSubmenus_touch (T : List PNode)
    (hsub : ∀ a b, b ∈ subsOf T a → b < a) (s : DState) (n k : Nat)
    (htouch : ¬((closeSubmenus T s n).enb k = s.enb k ∧
      (closeSubmenus T s n).sel k = s.sel k)) :
    ∀ m ∈ subsOf T k, (closeSubmenus T s n).enb m = false := by
  refine foldl_touch_helper T n (subsOf T n) ?_ s k htouch
  intro m' hm' s' k' ht'
  exact closeMenuF_touch T hsub m' n (hsub n m' hm') s' k' ht'

/-! ## `closeParents` -/

/-- Along a strictly increasing parent chain, `close_parents` is
`close_menu` at some parentless ancestor. -/
theorem closeParentsF_eq (T : List PNode)
    (hpar : ∀ a b, parOf T a = some b → a < b ∧ b < T.length) :
    ∀ fuel n s, T.length - n < fuel →
      ∃ a, parOf T a = none ∧ closeParentsF T fuel s n = closeMenu T s a := by
  intro fuel
  induction fuel with
  | zero => intro n s h; omega
  | succ fuel ih =>
      intro n s h
      cases hp : parOf T n with
      | none => exact ⟨n, hp, by simp [closeParentsF, hp]⟩
      | some p =>
          have hb := hpar n p hp
          rcases ih p s (by omega) with ⟨a, ha, heq⟩
          refine ⟨a, ha, ?_⟩
          rw [show closeParentsF T (fuel+1) s n =
            (match parOf T n with
             | none => closeMenu T s n
             | some p => closeParentsF T fuel s p) from rfl, hp]
          exact heq

/-- `close_parents` with its standard fuel is `close_menu` at a
parentless ancestor. -/
theorem closeParents_eq (T : List PNode)
    (hpar : ∀ a b, parOf T a = some b → a < b ∧ b < T.length)
    (s : DState) (n : Nat) :
    ∃ a, parOf T a = none ∧ closeParents T s n = closeMenu T s a :=
  closeParentsF_eq T hpar (T.length + 1) n s (by omega)

/-! ## Scan characterization -/

theorem scanF_succ (items : List MItem) (stepIdx : Nat → Nat) (i fuel : Nat) :
    scanF items stepIdx i (fuel + 1) =
      if (((items.get? i).map MItem.itemDisabled).getD true) = true then
        scanF items stepIdx (stepIdx i) fuel
      else some i := rfl

/-- A found item is enabled. -/
theorem scanF_some_dis (items : List MItem) (stepIdx : Nat → Nat) :
    ∀ fuel i j, scanF items stepIdx i fuel = some j →
      (((items.get? j).map MItem.itemDisabled).getD true) = false := by
  intro fuel
  induction fuel with
  | zero => intro i j h; cases h
  | succ fuel ih =>
      intro i j h
      rw [scanF_succ] at h
      split at h
      · exact ih (stepIdx i) j h
      · cases h
        exact Bool.eq_false_iff.mpr ‹¬_›

/-- The scan finds the first enabled item in the circular order: if the
items at steps `0 .. k-1` from `i` are disabled and the item at step `k`
is enabled, the scan returns it. -/
theorem scanF_some_of (items : List MItem) (stepIdx : Nat → Nat) :
    ∀ k fuel i, k < fuel →
      (∀ l, l < k → (((items.get? (stepIdx^[l] i)).map MItem.itemDisabled).getD true) = true) →
      (((items.get? (stepIdx^[k] i)).map MItem.itemDisabled).getD true) = false →
      scanF items stepIdx i fuel = some (stepIdx^[k] i) := by
  intro k
  induction k with
  | zero =>
      intro fuel i hk hprev hen
      match fuel, hk with
      | fuel+1, _ =>
        rw [scanF_succ]
        simp only [Function.iterate_zero_apply] at hen
        rw [hen]
        simp
  | succ k ih =>
      intro fuel i hk hprev hen
      match fuel, hk with
      | fuel+1, hk =>
        rw [scanF_succ]
        have h0 := hprev 0 (Nat.succ_pos k)
        simp only [Function.iterate_zero_apply] at h0
        rw [h0]
        simp only [if_true]
        have heq : ∀ l, stepIdx^[l] (stepIdx i) = stepIdx^[l+1] i := by
          intro l
          rw [Function.iterate_succ_apply]
        rw [show stepIdx^[k+1] i = stepIdx^[k] (stepIdx i) from
          (Function.iterate_succ_apply stepIdx k i).symm]
        refine ih fuel (stepIdx i) (by omega) ?_ ?_
        · intro l hl
          rw [heq l]
          exact hprev (l+1) (by omega)
        · rw [heq k]
          exact hen

/-- If every item over one full scan period is disabled, the scan fails. -/
theorem scanF_none_of (items : List MItem) (stepIdx : Nat → Nat) :
    ∀ fuel i,
      (∀ l, l < fuel → (((items.get? (stepIdx^[l] i)).map MItem.itemDisabled).getD true) = true) →
      scanF items stepIdx i fuel = none := by
  intro fuel
  induction fuel with
  | zero => intro i h; rfl
  | succ fuel ih =>
      intro i h
      rw [scanF_succ]
      have h0 := h 0 (Nat.succ_pos fuel)
      simp only [Function.iterate_zero_apply] at h0
      rw [h0]
      simp only [if_true]
      refine ih (stepIdx i) ?_
      intro l hl
      rw [← Function.iterate_succ_apply]
      exact h (l+1) (by omega)

/-! ## The up/down handler -/

/-- Effects of the shared up/down body when the scan succeeds: the found
item becomes the selection with hover highlight, every menu in the
node's `_submenus` (in particular each direct child submenu) is closed,
and the event is consumed. -/
theorem upDownLocal_found (T : List PNode) (hw : treeWF T = true)
    (VH VW : Nat) (s : DState) (n : Nat) (stepIdx : Nat → Nat) (start j : Nat)
    (hscan : scanF (itemsOf T n) stepIdx start (itemsOf T n).length = some j) :
    (upDownLocal T VH VW s n stepIdx start).2 = true ∧
    (upDownLocal T VH VW s n stepIdx start).1.sel n = (j : Int) ∧
    (upDownLocal T VH VW s n stepIdx start).1.hov n j = true ∧
    ∀ i' c, itemSubOf T n i' = some c →
      (upDownLocal T VH VW s n stepIdx start).1.enb c = false := by
  have hsub := wf_subs_lt hw
  have hres : upDownLocal T VH VW s n stepIdx start =
      (closeSubmenus T (updateHover T VH VW (setSel s n (j : Int)) n j) n, true) := by
    rw [upDownLocal, hscan]
  rw [hres]
  set t2 := updateHover T VH VW (setSel s n (j : Int)) n j with ht2
  have ht2sel : t2.sel n = (j : Int) := by
    rw [ht2, updateHover]
    rcases h : itemSubOf T n j with _ | c <;>
      simp [h, openMenuS_sel, setSel_sel, setHov_sel, setEnb_sel]
  have ht2hov : t2.hov n j = true := by
    rw [ht2, updateHover]
    rcases h : itemSubOf T n j with _ | c <;>
      simp [h, openMenuS_hov, setSel_hov, setHov_hov, setHov_sel, setSel_sel]
  have hfr := closeSubmenus_frame_ge T hsub t2 n n (Nat.le_refl n)
  refine ⟨rfl, ?_, ?_, ?_⟩
  · rw [hfr.2.1, ht2sel]
  · rw [hfr.2.2 j, ht2hov]
  · intro i' c hc
    exact (closeSubmenus_members T hsub t2 n c (wf_refs hw n i' c hc)).1

/-- When the scan fails, the shared up/down body changes nothing and
does not consume. -/
theorem upDownLocal_notfound (T : List PNode) (VH VW : Nat) (s : DState)
    (n : Nat) (stepIdx : Nat → Nat) (start : Nat)
    (hscan : scanF (itemsOf T n) stepIdx start (itemsOf T n).length = none) :
    upDownLocal T VH VW s n stepIdx start = (s, false) := by
  rw [upDownLocal, hscan]

/-- Reduction of the local `down` handler. -/
theorem onKeyLocal_down_eq (T : List PNode) (VH VW : Nat) (s : DState) (n : Nat) :
    onKeyLocal T VH VW s n .down =
      ((if s.sel n = -1 then
          upDownLocal T VH VW s n (fun i => (i + 1) % (itemsOf T n).length) 0
        else
          upDownLocal T VH VW (setHov s n (s.sel n).toNat false) n
            (fun i => (i + 1) % (itemsOf T n).length)
            (((s.sel n).toNat + 1) % (itemsOf T n).length)).1,
       (if s.sel n = -1 then
          upDownLocal T VH VW s n (fun i => (i + 1) % (itemsOf T n).length) 0
        else
          upDownLocal T VH VW (setHov s n (s.sel n).toNat false) n
            (fun i => (i + 1) % (itemsOf T n).length)
            (((s.sel n).toNat + 1) % (itemsOf T n).length)).2, []) := rfl

/-- Reduction of the local `up` handler. -/
theorem onKeyLocal_up_eq (T : List PNode) (VH VW : Nat) (s : DState) (n : Nat) :
    onKeyLocal T VH VW s n .up =
      ((if s.sel n = -1 then
          upDownLocal T VH VW s n
            (fun i => (i + (itemsOf T n).length - 1) % (itemsOf T n).length)
            ((itemsOf T n).length - 1)
        else
          upDownLocal T VH VW (setHov s n (s.sel n).toNat false) n
            (fun i => (i + (itemsOf T n).length - 1) % (itemsOf T n).length)
            (((s.sel n).toNat + (itemsOf T n).length - 1) % (itemsOf T n).length)).1,
       (if s.sel n = -1 then
          upDownLocal T VH VW s n
            (fun i => (i + (itemsOf T n).length - 1) % (itemsOf T n).length)
            ((itemsOf T n).length - 1)
        else
          upDownLocal T VH VW (setHov s n (s.sel n).toNat false) n
            (fun i => (i + (itemsOf T n).length - 1) % (itemsOf T n).length)
            (((s.sel n).toNat + (itemsOf T n).length - 1) % (itemsOf T n).length)).2,
       []) := rfl

/-- C5 (amended): the local up/down handler scans circularly from just
past the current selection (or from the end of the list in the scan
direction when there is none), skipping disabled items; the first
enabled item found becomes the selection with hover highlight, every
direct child submenu is closed, and the event is consumed; if the whole
period is scanned without finding an enabled item, the event is not
consumed and the selection is unchanged.  In the fixture [disabled,
disabled, enabled] with no selection, a `down` selects index 2 and
consumes; a further `down` wraps, re-selects index 2 and again consumes
(this is where the original claim said not-consumed). -/
theorem up_down_scan (T : List PNode) (hw : treeWF T = true) (VH VW : Nat)
    (s : DState) (n : Nat) :
    (∀ stepIdx start,
      stepIdx = (fun i => (i + 1) % (itemsOf T n).length) →
      start = (if s.sel n = -1 then 0
               else ((s.sel n).toNat + 1) % (itemsOf T n).length) →
      (∀ k j, k < (itemsOf T n).length → j = stepIdx^[k] start →
        (∀ l, l < k → itemDisabledOf T n (stepIdx^[l] start) = true) →
        itemDisabledOf T n j = false →
        (onKeyLocal T VH VW s n .down).2.1 = true ∧
        (onKeyLocal T VH VW s n .down).1.sel n = (j : Int) ∧
        (onKeyLocal T VH VW s n .down).1.hov n j = true ∧
        ∀ i' c, itemSubOf T n i' = some c →
          (onKeyLocal T VH VW s n .down).1.enb c = false) ∧
      ((∀ l, l < (itemsOf T n).length →
          itemDisabledOf T n (stepIdx^[l] start) = true) →
        (onKeyLocal T VH VW s n .down).2.1 = false ∧
        (onKeyLocal T VH VW s n .down).1.sel n = s.sel n)) ∧
    (∀ stepIdx start,
      stepIdx = (fun i => (i + (itemsOf T n).length - 1) % (itemsOf T n).length) →
      start = (if s.sel n = -1 then (itemsOf T n).length - 1
               else ((s.sel n).toNat + (itemsOf T n).length - 1) % (itemsOf T n).length) →
      (∀ k j, k < (itemsOf T n).length → j = stepIdx^[k] start →
        (∀ l, l < k → itemDisabledOf T n (stepIdx^[l] start) = true) →
        itemDisabledOf T n j = false →
        (onKeyLocal T VH VW s n .up).2.1 = true ∧
        (onKeyLocal T VH VW s n .up).1.sel n = (j : Int) ∧
        (onKeyLocal T VH VW s n .up).1.hov n j = true ∧
        ∀ i' c, itemSubOf T n i' = some c →
          (onKeyLocal T VH VW s n .up).1.enb c = false) ∧
      ((∀ l, l < (itemsOf T n).length →
          itemDisabledOf T n (stepIdx^[l] start) = true) →
        (onKeyLocal T VH VW s n .up).2.1 = false ∧
        (onKeyLocal T VH VW s n .up).1.sel n = s.sel n)) ∧
    ((onKeyLocal T5c 20 20 (initState T5c) 0 .down).1.sel 0 = 2 ∧
     (onKeyLocal T5c 20 20 (initState T5c) 0 .down).2.1 = true ∧
     (onKeyLocal T5c 20 20 s5c1 0 .down).1.sel 0 = 2 ∧
     (onKeyLocal T5c 20 20 s5c1 0 .down).2.1 = true) := by
  refine ⟨?_, ?_, rfl, rfl, rfl, rfl⟩
  · intro stepIdx start hstep hstart
    subst hstep; subst hstart
    constructor
    · intro k j hk hj hprev hen
      have hscan := scanF_some_of (itemsOf T n)
        (fun i => (i + 1) % (itemsOf T n).length) k (itemsOf T n).length _ hk
        (fun l hl => hprev l hl) (by rw [← hj]; exact hen)
      rw [← hj] at hscan
      rw [onKeyLocal_down_eq]
      by_cases hs : s.sel n = -1
      · rw [if_pos hs]
        have h := upDownLocal_found T hw VH VW s n _ _ j (by simpa [hs] using hscan)
        exact ⟨h.1, h.2.1, h.2.2.1, h.2.2.2⟩
      · rw [if_neg hs]
        have h := upDownLocal_found T hw VH VW (setHov s n (s.sel n).toNat false) n _ _ j
          (by simpa [hs] using hscan)
        exact ⟨h.1, h.2.1, h.2.2.1, h.2.2.2⟩
    · intro hall
      have hscan := scanF_none_of (itemsOf T n)
        (fun i => (i + 1) % (itemsOf T n).length) (itemsOf T n).length _
        (fun l hl => hall l hl)
      rw [onKeyLocal_down_eq]
      by_cases hs : s.sel n = -1
      · rw [if_pos hs]
        rw [upDownLocal_notfound T VH VW s n _ _ (by simpa [hs] using hscan)]
        exact ⟨rfl, rfl⟩
      · rw [if_neg hs]
        rw [upDownLocal_notfound T VH VW (setHov s n (s.sel n).toNat false) n _ _
          (by simpa [hs] using hscan)]
        exact ⟨rfl, by rw [setHov_sel]⟩
  · intro stepIdx start hstep hstart
    subst hstep; subst hstart
    constructor
    · intro k j hk hj hprev hen
      have hscan := scanF_some_of (itemsOf T n)
        (fun i => (i + (itemsOf T n).length - 1) % (itemsOf T n).length) k
        (itemsOf T n).length _ hk (fun l hl => hprev l hl) (by rw [← hj]; exact hen)
      rw [← hj] at hscan
      rw [onKeyLocal_up_eq]
      by_cases hs : s.sel n = -1
      · rw [if_pos hs]
        have h := upDownLocal_found T hw VH VW s n _ _ j (by simpa [hs] using hscan)
        exact ⟨h.1, h.2.1, h.2.2.1, h.2.2.2⟩
      · rw [if_neg hs]
        have h := upDownLocal_found T hw VH VW (setHov s n (s.sel n).toNat false) n _ _ j
          (by simpa [hs] using hscan)
        exact ⟨h.1, h.2.1, h.2.2.1, h.2.2.2⟩
    · intro hall
      have hscan := scanF_none_of (itemsOf T n)
        (fun i => (i + (itemsOf T n).length - 1) % (itemsOf T n).length)
        (itemsOf T n).length _ (fun l hl => hall l hl)
      rw [onKeyLocal_up_eq]
      by_cases hs : s.sel n = -1
      · rw [if_pos hs]
        rw [upDownLocal_notfound T VH VW s n _ _ (by simpa [hs] using hscan)]
        exact ⟨rfl, rfl⟩
      · rw [if_neg hs]
        rw [upDownLocal_notfound T VH VW (setHov s n (s.sel n).toNat false) n _ _
          (by simpa [hs] using hscan)]
        exact ⟨rfl, by rw [setHov_sel]⟩

/-- C5 witness: the scan theorem applied to the [disabled, disabled,
enabled] fixture with no selection: a `down` finds index 2 at scan step
2 (indices 0 and 1 being disabled) and consumes. -/
theorem up_down_scan_witness :
    (onKeyLocal T5c 20 20 (initState T5c) 0 .down).2.1 = true ∧
    (onKeyLocal T5c 20 20 (initState T5c) 0 .down).1.sel 0 = (2 : Int) := by
  have h := (up_down_scan T5c rfl 20 20 (initState T5c) 0).1
    (fun i => (i + 1) % (itemsOf T5c 0).length) 0 rfl (by decide)
  have h2 := h.1 2 2 (by decide) (by decide)
    (fun l hl => by interval_cases l <;> decide) (by decide)
  exact ⟨h2.1, h2.2.1⟩

/-! ## `updateHover` effects -/

/-- Unfolding of `update_hover`. -/
theorem updateHover_eq (T : List PNode) (VH VW : Nat) (x : DState) (nn ii : Nat) :
    updateHover T VH VW x nn ii =
      (let x1 := setHov x nn ii true
       let x2 :=
         if x1.sel nn ≠ -1 ∧ x1.sel nn ≠ (ii : Int) then
           setHov (closeSubmenus T x1 nn) nn (x1.sel nn).toNat false
         else x1
       let x3 := setSel x2 nn (ii : Int)
       match itemSubOf T nn ii with
       | some c => openMenuS T VH VW x3 c
       | none => x3) := rfl

/-- `update_hover` does not change its own menu's open state. -/
theorem updateHover_enb_self (T : List PNode) (hw : treeWF T = true)
    (VH VW : Nat) (x : DState) (nn ii : Nat) :
    (updateHover T VH VW x nn ii).enb nn = x.enb nn := by
  have hsub := wf_subs_lt hw
  rw [updateHover_eq]
  rcases hg : itemSubOf T nn ii with _ | g
  · simp only [hg]
    by_cases hgd : (setHov x nn ii true).sel nn ≠ -1 ∧
        (setHov x nn ii true).sel nn ≠ (ii : Int)
    · rw [if_pos hgd, setSel_enb, setHov_enb,
        (closeSubmenus_frame_ge T hsub _ nn nn (Nat.le_refl nn)).1, setHov_enb]
    · rw [if_neg hgd, setSel_enb, setHov_enb]
  · simp only [hg]
    have hgn : nn ≠ g := Ne.symm (Nat.ne_of_lt (wf_ref_lt hw nn ii g hg))
    by_cases hgd : (setHov x nn ii true).sel nn ≠ -1 ∧
        (setHov x nn ii true).sel nn ≠ (ii : Int)
    · rw [if_pos hgd, openMenuS_enb, if_neg hgn, setSel_enb, setHov_enb,
        (closeSubmenus_frame_ge T hsub _ nn nn (Nat.le_refl nn)).1, setHov_enb]
    · rw [if_neg hgd, openMenuS_enb, if_neg hgn, setSel_enb, setHov_enb]

/-- `update_hover` leaves its own menu's selection on the hovered item. -/
theorem updateHover_sel_self (T : List PNode) (VH VW : Nat) (x : DState)
    (nn ii : Nat) :
    (updateHover T VH VW x nn ii).sel nn = (ii : Int) := by
  rw [updateHover_eq]
  rcases hg : itemSubOf T nn ii with _ | g <;> simp [hg, openMenuS_sel, setSel_sel]

/-- `update_hover` leaves the hovered item highlighted (for a sane
current selection). -/
theorem updateHover_hov_self (T : List PNode) (hw : treeWF T = true)
    (VH VW : Nat) (x : DState) (nn ii : Nat)
    (hx : x.sel nn = -1 ∨ 0 ≤ x.sel nn) :
    (updateHover T VH VW x nn ii).hov nn ii = true := by
  have hsub := wf_subs_lt hw
  have key : ∀ x2,
      (if (setHov x nn ii true).sel nn ≠ -1 ∧
          (setHov x nn ii true).sel nn ≠ (ii : Int) then
        setHov (closeSubmenus T (setHov x nn ii true) nn) nn
          ((setHov x nn ii true).sel nn).toNat false
       else setHov x nn ii true) = x2 →
      x2.hov nn ii = true := by
    intro x2 hx2
    by_cases hgd : (setHov x nn ii true).sel nn ≠ -1 ∧
        (setHov x nn ii true).sel nn ≠ (ii : Int)
    · rw [if_pos hgd] at hx2
      rw [← hx2, setHov_hov]
      have hsel : (setHov x nn ii true).sel nn = x.sel nn := by rw [setHov_sel]
      have hne : ((setHov x nn ii true).sel nn).toNat ≠ ii := by
        rcases hx with hx | hx
        · exact absurd (hsel.trans hx) hgd.1
        · intro hcon
          apply hgd.2
          rw [hsel] at hcon ⊢
          rw [← hcon]
          exact (Int.toNat_of_nonneg hx).symm
      rw [if_neg (fun hcon => hne hcon.2.symm),
        (closeSubmenus_frame_ge T hsub _ nn nn (Nat.le_refl nn)).2.2 ii,
        setHov_hov, if_pos ⟨rfl, rfl⟩]
    · rw [if_neg hgd] at hx2
      rw [← hx2, setHov_hov, if_pos ⟨rfl, rfl⟩]
  rw [updateHover_eq]
  rcases hg : itemSubOf T nn ii with _ | g
  · simp only [hg]
    rw [setSel_hov]
    exact key _ rfl
  · simp only [hg]
    rw [openMenuS_hov, setSel_hov]
    exact key _ rfl

/-- Reduction of the local `right` handler. -/
theorem onKeyLocal_right_eq (T : List PNode) (VH VW : Nat) (s : DState) (n : Nat) :
    onKeyLocal T VH VW s n .right =
      if s.sel n ≠ -1 then
        match itemSubOf T n (s.sel n).toNat with
        | some c =>
            if s.enb c then (s, false, [])
            else
              ((if (itemsOf T c).length ≠ 0 then
                  closeSubmenus T (updateHover T VH VW (openMenuS T VH VW s c) c 0) c
                else openMenuS T VH VW s c), true, [])
        | none => (s, false, [])
      else (s, false, []) := rfl

/-- C9 (amended): a `right` key handled locally is consumed exactly when
the selection is on an item owning a currently-closed submenu; in that
case the submenu is opened and, if it has items, its internal selection
moves to the first item -- index 0, regardless of that item's disabled
flag -- with hover highlight, and its own children are closed; otherwise
the event is not consumed.  (`hsane` restricts to states whose
selections are -1 or an index, which is every state the engine ever
produces.) -/
theorem right_opens_submenu (T : List PNode) (hw : treeWF T = true)
    (VH VW : Nat) (s : DState) (n : Nat)
    (hsane : ∀ m, s.sel m = -1 ∨ 0 ≤ s.sel m) :
    ((onKeyLocal T VH VW s n .right).2.1 = true ↔
      (s.sel n ≠ -1 ∧ ∃ c, itemSubOf T n (s.sel n).toNat = some c ∧ s.enb c = false)) ∧
    (∀ c, s.sel n ≠ -1 → itemSubOf T n (s.sel n).toNat = some c → s.enb c = false →
      (onKeyLocal T VH VW s n .right).1.enb c = true ∧
      ((itemsOf T c).length ≠ 0 →
        (onKeyLocal T VH VW s n .right).1.sel c = 0 ∧
        (onKeyLocal T VH VW s n .right).1.hov c 0 = true ∧
        ∀ g ∈ subsOf T c, (onKeyLocal T VH VW s n .right).1.enb g = false)) := by
  have hsub := wf_subs_lt hw
  rw [onKeyLocal_right_eq]
  by_cases hs : s.sel n ≠ -1
  · rw [if_pos hs]
    rcases hsx : itemSubOf T n (s.sel n).toNat with _ | c
    · simp only [hsx]
      constructor
      · constructor
        · intro h; nomatch h
        · rintro ⟨_, c, hc, _⟩; nomatch hc
      · intro c _ hc; nomatch hc
    · simp only [hsx]
      by_cases he : s.enb c = true
      · rw [if_pos he]
        constructor
        · constructor
          · intro h; nomatch h
          · rintro ⟨_, c', hc', henb'⟩
            cases hc'
            rw [he] at henb'; nomatch henb'
        · intro c' _ hc' henb'
          cases hc'
          rw [he] at henb'; nomatch henb'
      · have he' : s.enb c = false := Bool.eq_false_iff.mpr he
        rw [if_neg he]
        constructor
        · exact ⟨fun _ => ⟨hs, c, rfl, he'⟩, fun _ => rfl⟩
        · intro c' _ hc' _
          cases hc'
          by_cases hlen : (itemsOf T c).length ≠ 0
          · rw [if_pos hlen]
            set s1 := openMenuS T VH VW s c with hs1
            set u := updateHover T VH VW s1 c 0 with hu
            have hfr := closeSubmenus_frame_ge T hsub u c c (Nat.le_refl c)
            have hs1sel : s1.sel c = s.sel c := by rw [hs1, openMenuS_sel]
            have huenb : u.enb c = s1.enb c := updateHover_enb_self T hw VH VW s1 c 0
            have hs1enb : s1.enb c = true := by rw [hs1, openMenuS_enb]; simp
            constructor
            · rw [hfr.1, huenb, hs1enb]
            · intro _
              refine ⟨?_, ?_, ?_⟩
              · rw [hfr.2.1, hu, updateHover_sel_self]; simp
              · rw [hfr.2.2 0, hu]
                exact updateHover_hov_self T hw VH VW s1 c 0
                  (by rw [hs1sel]; exact hsane c)
              · intro g hg
                exact (closeSubmenus_members T hsub u c g hg).1
          · rw [if_neg hlen]
            refine ⟨by rw [openMenuS_enb]; simp, fun hcon => absurd hcon hlen⟩
  · rw [if_neg hs]
    constructor
    · constructor
      · intro h; nomatch h
      · rintro ⟨hcon, _⟩; exact absurd hcon hs
    · intro c hcon; exact absurd hcon hs

/-- C9 witness: the right-key theorem applied to the fixture `T9c` (root
selection on its submenu item, submenu closed, first submenu item
disabled): the event is consumed, the submenu opens, and its selection
lands on index 0. -/
theorem right_opens_submenu_witness :
    (onKeyLocal T9c 20 20 s9c 1 .right).2.1 = true ∧
    (onKeyLocal T9c 20 20 s9c 1 .right).1.enb 0 = true ∧
    (onKeyLocal T9c 20 20 s9c 1 .right).1.sel 0 = 0 := by
  have h := right_opens_submenu T9c rfl 20 20 s9c 1
    (fun m => by
      by_cases hm1 : m = 1
      · subst hm1; right; decide
      · left
        show (setSel (initState T9c) 1 0).sel m = -1
        rw [setSel_sel, if_neg hm1]
        by_cases hm0 : m = 0
        · subst hm0; decide
        · show ((T9c.get? m).map PNode.currentSelection).getD (-1) = -1
          rw [List.get?_eq_none.mpr ?_]
          · rfl
          · match m, hm0, hm1 with
            | m+2, _, _ => exact by simp [T9c])
  have hc := h.2 0 (by decide) (by decide) (by decide)
  exact ⟨(h.1).mpr ⟨by decide, 0, by decide, by decide⟩, hc.1, (hc.2 (by decide)).1⟩

/-! ## Build unfolding -/

theorem buildItemsGo_cb
    (R : Nat → List (String × SpecVal) → Except BuildErr (List PNode))
    (w off : Nat) (label : String) (cb : Nat) (rest : List (String × SpecVal)) :
    buildItemsGo R w off ((label, .cbV cb) :: rest) =
      (buildItemsGo R w off rest).bind (fun r =>
        .ok (r.1, (⟨label, some cb, none, false⟩ : MItem) :: r.2.1, r.2.2)) := rfl

theorem buildItemsGo_sub
    (R : Nat → List (String × SpecVal) → Except BuildErr (List PNode))
    (w off : Nat) (label : String) (entries rest : List (String × SpecVal)) :
    buildItemsGo R w off ((label, .subV entries) :: rest) =
      (R off entries).bind (fun ys =>
        (buildItemsGo R w (off + ys.length) rest).bind (fun r =>
          .ok (ys ++ r.1,
               (⟨label, none, some (off + ys.length - 1), false⟩ : MItem) :: r.2.1,
               (List.range ys.length).map (off + ·) ++ r.2.2))) := rfl

theorem buildF_succ_cons (fuel off : Nat) (e : String × SpecVal)
    (es : List (String × SpecVal)) :
    buildF (fuel + 1) off (e :: es) =
      (buildItemsGo (buildF fuel) (menuWidth (e :: es)) off (e :: es)).bind
        (fun r =>
          .ok ((r.1.map fun nd =>
                 { nd with parentMenu := some (off + r.1.length),
                           isEnabled := false }) ++
               [{ items := r.2.1, parentMenu := none, submenus := r.2.2,
                  isEnabled := true, currentSelection := -1,
                  heightN := (e :: es).length, widthN := menuWidth (e :: es),
                  posY := 0, posX := 0 }])) := rfl

theorem except_bind_ok {α β γ : Type} {e : Except α β} {f : β → Except α γ}
    {b : γ} (h : e.bind f = .ok b) : ∃ a, e = .ok a ∧ f a = .ok b := by
  cases e with
  | error x => simp [Except.bind] at h
  | ok a => exact ⟨a, rfl, h⟩

/-! ## Build invariant proofs -/

/-- The entry loop preserves the intermediate build invariant. -/
theorem buildItemsGo_ok (fuel : Nat)
    (IH : ∀ off m ns, buildF fuel off m = .ok ns → BuiltOK off ns) :
    ∀ (entries : List (String × SpecVal)) (w off : Nat)
      (ns : List PNode) (its : List MItem) (ss : List Nat),
      buildItemsGo (buildF fuel) w off entries = .ok (ns, its, ss) →
      ItemsOK off ns its ss := by
  intro entries
  induction entries with
  | nil =>
      intro w off ns its ss h
      cases h
      refine ⟨rfl, ?_, ?_, ?_, ?_, ?_⟩
      · intro k nd hk; cases hk
      · intro i it hi; cases hi
      · intro i1 it1 i2 it2 c h1; cases h1
      · intro i it c hi; cases hi
      · intro k1 nd1 i1 it1 k2 nd2 i2 it2 c h1; cases h1
  | cons e rest ih =>
      intro w off ns its ss h
      rcases e with ⟨label, v⟩
      rcases v with cb | entries0 | ty
      · -- callback entry
        rw [buildItemsGo_cb] at h
        rcases except_bind_ok h with ⟨⟨ns0, its0, ss0⟩, hrest, hok⟩
        cases hok
        obtain ⟨hss, hnodes, hits, hitsU, hshare, hnodesU⟩ :=
          ih w off ns0 its0 ss0 hrest
        refine ⟨hss, hnodes, ?_, ?_, ?_, hnodesU⟩
        · intro i it hi
          match i, hi with
          | 0, hi =>
              cases hi
              exact ⟨rfl, fun c hc => by cases hc⟩
          | i+1, hi => exact hits i it hi
        · intro i1 it1 i2 it2 c h1 hs1 h2 hs2
          match i1, h1 with
          | 0, h1 => cases h1; cases hs1
          | i1+1, h1 =>
              match i2, h2 with
              | 0, h2 => cases h2; cases hs2
              | i2+1, h2 => rw [hitsU i1 it1 i2 it2 c h1 hs1 h2 hs2]
        · intro i it c hi hc k nd i2 it2 hk hi2
          match i, hi with
          | 0, hi => cases hi; cases hc
          | i+1, hi => exact hshare i it c hi hc k nd i2 it2 hk hi2
      · -- nested dict entry
        rw [buildItemsGo_sub] at h
        rcases except_bind_ok h with ⟨ys, hys, h2⟩
        rcases except_bind_ok h2 with ⟨⟨ns0, its0, ss0⟩, hrest, hok⟩
        cases hok
        dsimp only
        obtain ⟨hne, hnodesY, hrootY, hUY⟩ := IH off entries0 ys hys
        obtain ⟨hss, hnodes, hits, hitsU, hshare, hnodesU⟩ :=
          ih w (off + ys.length) ns0 its0 ss0 hrest
        have hL : 1 ≤ ys.length := by
          cases ys with
          | nil => exact absurd rfl hne
          | cons a l => simp
        constructor
        · -- combined submenu ids are the full range
          rw [hss, List.length_append, List.range_add, List.map_append,
            List.map_map]
          congr 1
          apply List.map_congr_left
          intro x hx
          simp [Nat.add_assoc]
        refine ⟨?_, ?_, ?_, ?_, ?_⟩
        · -- nodes of the concatenation
          intro k nd hk
          by_cases hkL : k < ys.length
          · rw [List.get?_append hkL] at hk
            obtain ⟨hsel, henb, hpar, hsubs, hdis, hrefs⟩ := hnodesY k nd hk
            exact ⟨hsel, hsubs, hdis, hrefs⟩
          · rw [List.get?_append_right (Nat.le_of_not_lt hkL)] at hk
            obtain ⟨hsel, hsubs, hdis, hrefs⟩ := hnodes (k - ys.length) nd hk
            have hkeq : off + ys.length + (k - ys.length) = off + k := by omega
            refine ⟨hsel, ?_, hdis, ?_⟩
            · intro m hm
              have := hsubs m hm
              omega
            · intro i it hi c hc
              obtain ⟨hmem, hlo, hhi⟩ := hrefs i it hi c hc
              exact ⟨hmem, by omega, by omega⟩
        · -- items built so far
          intro i it hi
          match i, hi with
          | 0, hi =>
              cases hi
              refine ⟨rfl, ?_⟩
              intro c hc
              cases hc
              refine ⟨?_, by omega, by
                rw [List.length_append]; omega⟩
              rw [List.mem_append]
              left
              rw [List.mem_map]
              exact ⟨ys.length - 1, List.mem_range.mpr (by omega), by omega⟩
          | i+1, hi =>
              obtain ⟨hdis, hrefs⟩ := hits i it hi
              refine ⟨hdis, ?_⟩
              intro c hc
              obtain ⟨hmem, hlo, hhi⟩ := hrefs c hc
              refine ⟨?_, by omega, by rw [List.length_append]; omega⟩
              rw [List.mem_append]
              exact Or.inr hmem
        · -- distinct items reference distinct submenus
          intro i1 it1 i2 it2 c h1 hs1 h2 hs2
          match i1, h1 with
          | 0, h1 =>
              cases h1
              cases hs1
              match i2, h2 with
              | 0, h2 => rfl
              | i2+1, h2 =>
                  obtain ⟨_, hrefs⟩ := hits i2 it2 h2
                  obtain ⟨_, hlo, _⟩ := hrefs _ hs2
                  omega
          | i1+1, h1 =>
              match i2, h2 with
              | 0, h2 =>
                  cases h2
                  cases hs2
                  obtain ⟨_, hrefs⟩ := hits i1 it1 h1
                  obtain ⟨_, hlo, _⟩ := hrefs _ hs1
                  omega
              | i2+1, h2 => rw [hitsU i1 it1 i2 it2 c h1 hs1 h2 hs2]
        · -- no item shares a submenu with a yielded node's item
          intro i it c hi hc k nd i2 it2 hk hi2 hs2
          by_cases hkL : k < ys.length
          · rw [List.get?_append hkL] at hk
            obtain ⟨_, _, _, _, _, hrefs⟩ := hnodesY k nd hk
            obtain ⟨_, _, hhi⟩ := hrefs i2 it2 hi2 c hs2
            match i, hi with
            | 0, hi =>
                cases hi
                cases hc
                omega
            | i+1, hi =>
                obtain ⟨_, hrefs'⟩ := hits i it hi
                obtain ⟨_, hlo, _⟩ := hrefs' c hc
                omega
          · rw [List.get?_append_right (Nat.le_of_not_lt hkL)] at hk
            match i, hi with
            | 0, hi =>
                cases hi
                cases hc
                obtain ⟨_, _, _, hrefs⟩ := hnodes (k - ys.length) nd hk
                obtain ⟨_, hlo, _⟩ := hrefs i2 it2 hi2 _ hs2
                omega
            | i+1, hi =>
                exact hshare i it c hi hc (k - ys.length) nd i2 it2 hk hi2 hs2
        · -- ownership among the yielded nodes is unique
          intro k1 nd1 i1 it1 k2 nd2 i2 it2 c hk1 hi1 hs1 hk2 hi2 hs2
          by_cases hk1L : k1 < ys.length <;> by_cases hk2L : k2 < ys.length
          · rw [List.get?_append hk1L] at hk1
            rw [List.get?_append hk2L] at hk2
            exact hUY k1 nd1 i1 it1 k2 nd2 i2 it2 c hk1 hi1 hs1 hk2 hi2 hs2
          · rw [List.get?_append hk1L] at hk1
            rw [List.get?_append_right (Nat.le_of_not_lt hk2L)] at hk2
            obtain ⟨_, _, _, _, _, hrefs1⟩ := hnodesY k1 nd1 hk1
            obtain ⟨_, _, hhi1⟩ := hrefs1 i1 it1 hi1 c hs1
            obtain ⟨_, _, _, hrefs2⟩ := hnodes (k2 - ys.length) nd2 hk2
            obtain ⟨_, hlo2, _⟩ := hrefs2 i2 it2 hi2 c hs2
            omega
          · rw [List.get?_append_right (Nat.le_of_not_lt hk1L)] at hk1
            rw [List.get?_append hk2L] at hk2
            obtain ⟨_, _, _, _, _, hrefs2⟩ := hnodesY k2 nd2 hk2
            obtain ⟨_, _, hhi2⟩ := hrefs2 i2 it2 hi2 c hs2
            obtain ⟨_, _, _, hrefs1⟩ := hnodes (k1 - ys.length) nd1 hk1
            obtain ⟨_, hlo1, _⟩ := hrefs1 i1 it1 hi1 c hs1
            omega
          · rw [List.get?_append_right (Nat.le_of_not_lt hk1L)] at hk1
            rw [List.get?_append_right (Nat.le_of_not_lt hk2L)] at hk2
            have := hnodesU (k1 - ys.length) nd1 i1 it1 (k2 - ys.length) nd2
              i2 it2 c hk1 hi1 hs1 hk2 hi2 hs2
            omega
      · -- invalid entry never returns ok
        rw [show buildItemsGo (buildF fuel) w off ((label, .otherV ty) :: rest)
            = .error (.typeErrorGot ty) from rfl] at h
        cases h

/-- Every successful run of the fueled builder satisfies the build
invariant. -/
theorem buildF_ok :
    ∀ fuel off m ns, buildF fuel off m = .ok ns → BuiltOK off ns := by
  intro fuel
  induction fuel with
  | zero => intro off m ns h; cases h
  | succ fuel ih =>
      intro off m ns h
      match m with
      | [] =>
          rw [show buildF (fuel+1) off [] = .error .emptyMaxValueError from rfl] at h
          cases h
      | e :: es =>
          rw [buildF_succ_cons] at h
          rcases except_bind_ok h with ⟨⟨ns0, its0, ss0⟩, hgo, hok⟩
          cases hok
          dsimp only
          obtain ⟨hss, hnodes, hits, hitsU, hshare, hnodesU⟩ :=
            buildItemsGo_ok fuel ih (e :: es) (menuWidth (e :: es)) off
              ns0 its0 ss0 hgo
          set F : PNode → PNode := fun nd =>
            { nd with parentMenu := some (off + ns0.length),
                      isEnabled := false } with hF
          set self : PNode :=
            { items := its0, parentMenu := none, submenus := ss0,
              isEnabled := true, currentSelection := -1,
              heightN := (e :: es).length, widthN := menuWidth (e :: es),
              posY := 0, posX := 0 } with hself
          have hmapslen : (ns0.map F).length = ns0.length := List.length_map _ _
          have hlen : (ns0.map F ++ [self]).length = ns0.length + 1 := by
            rw [List.length_append, hmapslen]
            rfl
          have hgetlow : ∀ k, k < ns0.length → ∀ nd,
              (ns0.map F ++ [self]).get? k = some nd →
              ∃ nd0, ns0.get? k = some nd0 ∧ nd = F nd0 := by
            intro k hk nd hnd
            rw [List.get?_append (by rw [hmapslen]; exact hk),
              List.get?_map] at hnd
            rcases Option.map_eq_some'.mp hnd with ⟨nd0, hnd0, hfe⟩
            exact ⟨nd0, hnd0, hfe.symm⟩
          have hgettop : (ns0.map F ++ [self]).get? ns0.length = some self := by
            have hcl := List.get?_concat_length (ns0.map F) self
            rw [hmapslen] at hcl
            exact hcl
          have hgetnone : ∀ k, ns0.length < k →
              (ns0.map F ++ [self]).get? k = none := by
            intro k hk
            exact List.get?_eq_none.mpr (by rw [hlen]; omega)
          have hFsel : ∀ nd, (F nd).currentSelection = nd.currentSelection :=
            fun nd => rfl
          have hFitems : ∀ nd, (F nd).items = nd.items := fun nd => rfl
          have hFsubs : ∀ nd, (F nd).submenus = nd.submenus := fun nd => rfl
          have hFpar : ∀ nd, (F nd).parentMenu = some (off + ns0.length) :=
            fun nd => rfl
          have hFenb : ∀ nd, (F nd).isEnabled = false := fun nd => rfl
          refine ⟨by simp, ?_, ?_, ?_⟩
          · intro k nd hk
            rw [hlen]
            by_cases hkL : k < ns0.length
            · rcases hgetlow k hkL nd hk with ⟨nd0, hnd0, rfl⟩
              obtain ⟨hsel, hsubs, hdis, hrefs⟩ := hnodes k nd0 hnd0
              have hkne : ¬ k = ns0.length + 1 - 1 := by omega
              rw [hFsel, hFitems, hFsubs, hFpar, hFenb]
              refine ⟨hsel, iff_of_false (by simp) hkne, ?_, hsubs, hdis,
                hrefs⟩
              rw [if_neg hkne]
              exact congrArg some (by omega)
            · by_cases hkT : k = ns0.length
              · subst hkT
                rw [hgettop] at hk
                cases hk
                refine ⟨rfl, by simp, by rw [if_pos (by omega)], ?_, ?_, ?_⟩
                · intro m hm
                  rw [show self.submenus = ss0 from rfl, hss] at hm
                  rcases List.mem_map.mp hm with ⟨j, hj, rfl⟩
                  have := List.mem_range.mp hj
                  omega
                · intro it hit
                  rw [show self.items = its0 from rfl] at hit
                  rcases List.mem_iff_get?.mp hit with ⟨i, hi⟩
                  exact (hits i it hi).1
                · intro i it hi c hc
                  rw [show self.items = its0 from rfl] at hi
                  obtain ⟨_, hrefs⟩ := hits i it hi
                  obtain ⟨hmem, hlo, hhi⟩ := hrefs c hc
                  exact ⟨hmem, hlo, hhi⟩
              · exfalso
                rw [hgetnone k (by omega)] at hk
                cases hk
          · intro nd hnd
            rw [hlen] at hnd
            have hk1 : ns0.length + 1 - 1 = ns0.length := by omega
            rw [hk1] at hnd
            rw [hgettop] at hnd
            cases hnd
            rw [show self.submenus = ss0 from rfl, hss, hlen, hk1]
          · intro k1 nd1 i1 it1 k2 nd2 i2 it2 c hk1 hi1 hs1 hk2 hi2 hs2
            have hb1 : k1 ≤ ns0.length := by
              by_contra hgt
              rw [hgetnone k1 (by omega)] at hk1
              cases hk1
            have hb2 : k2 ≤ ns0.length := by
              by_contra hgt
              rw [hgetnone k2 (by omega)] at hk2
              cases hk2
            by_cases hk1L : k1 < ns0.length <;> by_cases hk2L : k2 < ns0.length
            · rcases hgetlow k1 hk1L nd1 hk1 with ⟨nd01, hnd01, rfl⟩
              rcases hgetlow k2 hk2L nd2 hk2 with ⟨nd02, hnd02, rfl⟩
              rw [hFitems] at hi1 hi2
              exact hnodesU k1 nd01 i1 it1 k2 nd02 i2 it2 c hnd01 hi1 hs1
                hnd02 hi2 hs2
            · have hk2T : k2 = ns0.length := by omega
              subst hk2T
              rw [hgettop] at hk2
              cases hk2
              rcases hgetlow k1 hk1L nd1 hk1 with ⟨nd01, hnd01, rfl⟩
              rw [hFitems] at hi1
              rw [show self.items = its0 from rfl] at hi2
              exact absurd hs1 (hshare i2 it2 c hi2 hs2 k1 nd01 i1 it1 hnd01 hi1)
            · have hk1T : k1 = ns0.length := by omega
              subst hk1T
              rw [hgettop] at hk1
              cases hk1
              rcases hgetlow k2 hk2L nd2 hk2 with ⟨nd02, hnd02, rfl⟩
              rw [hFitems] at hi2
              rw [show self.items = its0 from rfl] at hi1
              exact absurd hs2 (hshare i1 it1 c hi1 hs1 k2 nd02 i2 it2 hnd02 hi2)
            · have hk1T : k1 = ns0.length := by omega
              have hk2T : k2 = ns0.length := by omega
              subst hk1T; subst hk2T
              rw [hgettop] at hk1 hk2
              cases hk1; cases hk2
              rw [show self.items = its0 from rfl] at hi1 hi2
              exact ⟨rfl, hitsU i1 it1 i2 it2 c hi1 hs1 hi2 hs2⟩

/-! ## Facts extracted from the build invariant -/

theorem itemsOf_of_get? {T : List PNode} {n : Nat} {nd : PNode}
    (h : T.get? n = some nd) : itemsOf T n = nd.items := by
  show ((T.get? n).map PNode.items).getD [] = nd.items
  rw [h]; rfl

theorem subsOf_of_get? {T : List PNode} {n : Nat} {nd : PNode}
    (h : T.get? n = some nd) : subsOf T n = nd.submenus := by
  show ((T.get? n).map PNode.submenus).getD [] = nd.submenus
  rw [h]; rfl

theorem parOf_of_get? {T : List PNode} {n : Nat} {nd : PNode}
    (h : T.get? n = some nd) : parOf T n = nd.parentMenu := by
  show (T.get? n).bind PNode.parentMenu = nd.parentMenu
  rw [h]; rfl

theorem itemsOf_of_get?_none {T : List PNode} {n : Nat}
    (h : T.get? n = none) : itemsOf T n = [] := by
  show ((T.get? n).map PNode.items).getD [] = []
  rw [h]; rfl

/-- In a completed build, every position below the length holds a node. -/
theorem builtOK_get {T : List PNode} (hb : BuiltOK 0 T) :
    ∀ n, n < T.length → ∃ nd, T.get? n = some nd :=
  fun n hn => ⟨T.get ⟨n, hn⟩, List.get?_eq_get hn⟩

/-- A completed build has at least one node (the dict's own menu). -/
theorem builtOK_len_pos {T : List PNode} (hb : BuiltOK 0 T) : 1 ≤ T.length := by
  rcases hT : T with _ | ⟨nd, rest⟩
  · exact absurd hT hb.1
  · simp

/-- A completed build satisfies the structural well-formedness check. -/
theorem builtOK_treeWF {T : List PNode} (hb : BuiltOK 0 T) : treeWF T = true := by
  obtain ⟨hne, hnode, hroot, huniq⟩ := hb
  have hlen : 1 ≤ T.length := builtOK_len_pos ⟨hne, hnode, hroot, huniq⟩
  rw [treeWF, Bool.and_eq_true]
  constructor
  · rw [List.all_eq_true]
    intro n hn
    rw [List.mem_range] at hn
    obtain ⟨nd, hnd⟩ := builtOK_get ⟨hne, hnode, hroot, huniq⟩ n hn
    obtain ⟨-, -, hpar, hsubs, -, hrefs⟩ := hnode n nd hnd
    have hsubsOf : subsOf T n = nd.submenus := subsOf_of_get? hnd
    have hitemsOf : itemsOf T n = nd.items := itemsOf_of_get? hnd
    have hparOf : parOf T n = nd.parentMenu := parOf_of_get? hnd
    rw [Bool.and_eq_true, Bool.and_eq_true]
    refine ⟨⟨?_, ?_⟩, ?_⟩
    · rw [List.all_eq_true]
      intro m hm
      rw [hsubsOf] at hm
      have := hsubs m hm
      simpa using this.2
    · rw [hparOf, hpar]
      by_cases hk : n = T.length - 1
      · rw [if_pos hk]
      · rw [if_neg hk]
        simp only [Bool.and_eq_true, decide_eq_true_eq]
        omega
    · rw [List.all_eq_true]
      intro it hit
      rw [hitemsOf] at hit
      rcases hs : it.submenu with _ | c
      · rfl
      · rcases List.mem_iff_get?.mp hit with ⟨i, hi⟩
        have := (hrefs i it hi c hs).1
        rw [hsubsOf]
        exact List.elem_iff.mpr this
  · rw [refsUniqueB, List.all_eq_true]
    intro n1 hn1
    rw [List.all_eq_true]
    intro i1 hi1
    rw [List.all_eq_true]
    intro n2 hn2
    rw [List.all_eq_true]
    intro i2 hi2
    rw [List.mem_range] at hn1 hn2 hi1 hi2
    rcases h1 : itemSubOf T n1 i1 with _ | c1
    · rcases h2 : itemSubOf T n2 i2 with _ | c2 <;> rfl
    · rcases h2 : itemSubOf T n2 i2 with _ | c2
      · rfl
      · show (if c1 = c2 then decide (n1 = n2) && decide (i1 = i2) else true) = true
        by_cases hcc : c1 = c2
        · subst hcc
          rw [if_pos rfl]
          obtain ⟨nd1, hnd1⟩ := builtOK_get ⟨hne, hnode, hroot, huniq⟩ n1 hn1
          obtain ⟨nd2, hnd2⟩ := builtOK_get ⟨hne, hnode, hroot, huniq⟩ n2 hn2
          rcases Option.bind_eq_some.mp h1 with ⟨it1, hit1, hs1⟩
          rcases Option.bind_eq_some.mp h2 with ⟨it2, hit2, hs2⟩
          rw [itemsOf_of_get? hnd1] at hit1
          rw [itemsOf_of_get? hnd2] at hit2
          have := huniq n1 nd1 i1 it1 n2 nd2 i2 it2 c1 hnd1 hit1 hs1 hnd2 hit2 hs2
          simp [this.1, this.2]
        · rw [if_neg hcc]

/-- A completed build has no disabled item anywhere. -/
theorem builtOK_allEnabled {T : List PNode} (hb : BuiltOK 0 T) :
    allItemsEnabled T = true := by
  obtain ⟨hne, hnode, hroot, huniq⟩ := hb
  rw [allItemsEnabled, List.all_eq_true]
  intro nd hnd
  rw [List.all_eq_true]
  intro it hit
  rcases List.mem_iff_get?.mp hnd with ⟨n, hn⟩
  obtain ⟨-, -, -, -, hdis, -⟩ := hnode n nd hn
  simp [hdis it hit]

/-- Every node of a completed build starts with selection -1 (and so
does every out-of-range id, by the accessor default). -/
theorem builtOK_init_sel {T : List PNode} (hb : BuiltOK 0 T) :
    ∀ n, (initState T).sel n = -1 := by
  intro n
  show ((T.get? n).map PNode.currentSelection).getD (-1) = -1
  rcases hn : T.get? n with _ | nd
  · rfl
  · obtain ⟨hsel, -, -, -, -, -⟩ := hb.2.1 n nd hn
    simp [hsel]

/-- Exactly the last node of a completed build starts open. -/
theorem builtOK_init_enb {T : List PNode} (hb : BuiltOK 0 T) :
    ∀ n, (initState T).enb n = true ↔ n = T.length - 1 := by
  intro n
  have hlen := builtOK_len_pos hb
  show ((T.get? n).map PNode.isEnabled).getD false = true ↔ n = T.length - 1
  rcases hn : T.get? n with _ | nd
  · have hge : T.length ≤ n := by
      by_contra hlt
      obtain ⟨nd, hnd⟩ := builtOK_get hb n (Nat.lt_of_not_le hlt)
      rw [hn] at hnd; cases hnd
    constructor
    · intro h; cases h
    · intro h; omega
  · obtain ⟨-, henb, -, -, -, -⟩ := hb.2.1 n nd hn
    simpa using henb

/-- Parent references of a completed build: the last node is parentless,
every other node points at the last node. -/
theorem builtOK_parOf {T : List PNode} (hb : BuiltOK 0 T) :
    ∀ n, n < T.length →
      parOf T n = if n = T.length - 1 then none else some (T.length - 1) := by
  intro n hn
  obtain ⟨nd, hnd⟩ := builtOK_get hb n hn
  obtain ⟨-, -, hpar, -, -, -⟩ := hb.2.1 n nd hnd
  rw [parOf_of_get? hnd, hpar, Nat.zero_add]

/-- The `_submenus` of the last node of a completed build list every
earlier id. -/
theorem builtOK_subs_root {T : List PNode} (hb : BuiltOK 0 T) :
    subsOf T (T.length - 1) = List.range (T.length - 1) := by
  have hlen := builtOK_len_pos hb
  obtain ⟨nd, hnd⟩ := builtOK_get hb (T.length - 1) (by omega)
  have := hb.2.2.1 nd hnd
  rw [subsOf_of_get? hnd, this]
  simp

/-- In an arena with no disabled item, every in-range index is
enabled. -/
theorem allEnabled_dis {T : List PNode} (hae : allItemsEnabled T = true) :
    ∀ n j, j < (itemsOf T n).length → itemDisabledOf T n j = false := by
  intro n j hj
  rw [allItemsEnabled, List.all_eq_true] at hae
  rcases hn : T.get? n with _ | nd
  · rw [itemsOf_of_get?_none hn] at hj
    cases hj
  · have hndm : nd ∈ T := List.get?_mem hn
    have h2 := hae nd hndm
    rw [List.all_eq_true] at h2
    have hitems : itemsOf T n = nd.items := itemsOf_of_get? hn
    rw [hitems] at hj
    obtain ⟨it, hit⟩ : ∃ it, nd.items.get? j = some it :=
      ⟨nd.items.get ⟨j, hj⟩, List.get?_eq_get hj⟩
    have := h2 it (List.get?_mem hit)
    rw [itemDisabledOf, hitems, hit]
    simpa using this


/-! ## Invariant preservation: the close family -/

/-- A state whose selections each stayed put or were reset keeps
selection validity. -/
theorem inv2_of_sel_cases {T : List PNode} {s t : DState}
    (h : ∀ k, t.sel k = s.sel k ∨ t.sel k = -1) (h2 : Inv2 T s) : Inv2 T t := by
  intro n hn
  rcases h n with he | he
  · rw [he]; exact h2 n hn
  · rw [he]; exact Or.inl rfl

/-- Closing any menu preserves the chain invariant: an owner whose child
remains open was not visited by the close recursion, so its open flag
and selection are untouched. -/
theorem closeMenuF_inv1 (T : List PNode) (hw : treeWF T = true)
    (fuel r : Nat) (hfr : r < fuel) (s : DState) (h1 : Inv1 T s) :
    Inv1 T (closeMenuF T fuel s r) := by
  intro n i c hic hcE
  have hsub := wf_subs_lt hw
  have hcE0 : s.enb c = true := closeMenuF_enb_mono T fuel r s c hcE
  obtain ⟨hne, hse⟩ := h1 n i c hic hcE0
  by_cases ht : (closeMenuF T fuel s r).enb n = s.enb n ∧
      (closeMenuF T fuel s r).sel n = s.sel n
  · rw [ht.1, ht.2]; exact ⟨hne, hse⟩
  · have := closeMenuF_touch T hsub r fuel hfr s n ht c (wf_refs hw n i c hic)
    rw [this] at hcE
    cases hcE

/-- Closing any menu preserves selection validity. -/
theorem closeMenuF_inv2 (T : List PNode) (fuel r : Nat) (s : DState)
    (h2 : Inv2 T s) : Inv2 T (closeMenuF T fuel s r) :=
  inv2_of_sel_cases (fun k => closeMenuF_sel_cases T fuel r s k) h2

/-- `close_submenus` preserves the chain invariant. -/
theorem closeSubmenus_inv1 (T : List PNode) (hw : treeWF T = true)
    (s : DState) (r : Nat) (h1 : Inv1 T s) : Inv1 T (closeSubmenus T s r) := by
  intro n i c hic hcE
  have hsub := wf_subs_lt hw
  have hcE0 : s.enb c = true := closeSubmenus_enb_mono T s r c hcE
  obtain ⟨hne, hse⟩ := h1 n i c hic hcE0
  by_cases ht : (closeSubmenus T s r).enb n = s.enb n ∧
      (closeSubmenus T s r).sel n = s.sel n
  · rw [ht.1, ht.2]; exact ⟨hne, hse⟩
  · have := closeSubmenus_touch T hsub s r n ht c (wf_refs hw n i c hic)
    rw [this] at hcE
    cases hcE

/-- `close_submenus` preserves selection validity. -/
theorem closeSubmenus_inv2 (T : List PNode) (s : DState) (r : Nat)
    (h2 : Inv2 T s) : Inv2 T (closeSubmenus T s r) :=
  inv2_of_sel_cases (fun k => closeSubmenus_sel_cases T s r k) h2

/-- `close_parents` preserves the chain invariant. -/
theorem closeParents_inv1 (T : List PNode) (hw : treeWF T = true)
    (s : DState) (r : Nat) (h1 : Inv1 T s) : Inv1 T (closeParents T s r) := by
  rcases closeParents_eq T (wf_par hw) s r with ⟨a, -, heq⟩
  rw [heq]
  exact closeMenuF_inv1 T hw (a + 1) a (Nat.lt_succ_self a) s h1

/-- `close_parents` preserves selection validity. -/
theorem closeParents_inv2 (T : List PNode) (hw : treeWF T = true)
    (s : DState) (r : Nat) (h2 : Inv2 T s) : Inv2 T (closeParents T s r) := by
  rcases closeParents_eq T (wf_par hw) s r with ⟨a, -, heq⟩
  rw [heq]
  exact closeMenuF_inv2 T (a + 1) a s h2

/-! ## Invariant preservation: `update_hover` -/

/-- `update_hover` with the inner hover-state write and the
branch condition expressed directly on the incoming state. -/
theorem updateHover_split (T : List PNode) (VH VW : Nat) (s : DState)
    (n i : Nat) :
    updateHover T VH VW s n i =
      match itemSubOf T n i with
      | some c =>
          openMenuS T VH VW
            (setSel (if s.sel n ≠ -1 ∧ s.sel n ≠ (i : Int) then
                hoverSwitchAux T s n i
              else setHov s n i true) n (i : Int)) c
      | none =>
          setSel (if s.sel n ≠ -1 ∧ s.sel n ≠ (i : Int) then
              hoverSwitchAux T s n i
            else setHov s n i true) n (i : Int) := rfl

/-- Opened-child owners are unique: two items holding the same submenu
are the same item (restatement of `wf_uniq` at one submenu). -/
theorem updateHover_inv (T : List PNode) (hw : treeWF T = true)
    (hae : allItemsEnabled T = true) (VH VW : Nat) (s : DState) (n i : Nat)
    (hn : n < T.length) (henb : s.enb n = true)
    (hi : i < (itemsOf T n).length) (h1 : Inv1 T s) (h2 : Inv2 T s) :
    Inv1 T (updateHover T VH VW s n i) ∧ Inv2 T (updateHover T VH VW s n i) := by
  have hsub := wf_subs_lt hw
  set s2 := (if s.sel n ≠ -1 ∧ s.sel n ≠ (i : Int) then
      hoverSwitchAux T s n i
    else setHov s n i true) with hs2def
  have F1 : ∀ k, s2.enb k = true → s.enb k = true := by
    intro k hk
    rw [hs2def] at hk
    by_cases hcond : s.sel n ≠ -1 ∧ s.sel n ≠ (i : Int)
    · rw [if_pos hcond] at hk
      rw [hoverSwitchAux, setHov_enb] at hk
      have hk2 := closeSubmenus_enb_mono T (setHov s n i true) n k hk
      rw [setHov_enb] at hk2
      exact hk2
    · rw [if_neg hcond] at hk
      rw [setHov_enb] at hk
      exact hk
  have F2 : s2.enb n = s.enb n := by
    rw [hs2def]
    by_cases hcond : s.sel n ≠ -1 ∧ s.sel n ≠ (i : Int)
    · rw [if_pos hcond, hoverSwitchAux, setHov_enb,
        (closeSubmenus_frame_ge T hsub _ n n (Nat.le_refl n)).1, setHov_enb]
    · rw [if_neg hcond, setHov_enb]
  have F3 : ∀ k, s2.sel k = s.sel k ∨ s2.sel k = -1 := by
    intro k
    rw [hs2def]
    by_cases hcond : s.sel n ≠ -1 ∧ s.sel n ≠ (i : Int)
    · rw [if_pos hcond, hoverSwitchAux, setHov_sel]
      have := closeSubmenus_sel_cases T (setHov s n i true) n k
      rw [setHov_sel] at this
      exact this
    · rw [if_neg hcond, setHov_sel]
      exact Or.inl rfl
  have F4 : ∀ k, k ≠ n → (∃ c', s2.enb c' = true ∧ c' ∈ subsOf T k) →
      s2.enb k = s.enb k ∧ s2.sel k = s.sel k := by
    intro k hkn hex
    rw [hs2def]
    by_cases hcond : s.sel n ≠ -1 ∧ s.sel n ≠ (i : Int)
    · rw [if_pos hcond, hoverSwitchAux, setHov_enb, setHov_sel]
      rcases hex with ⟨c', hc'E, hc'mem⟩
      by_cases ht : (closeSubmenus T (setHov s n i true) n).enb k =
          (setHov s n i true).enb k ∧
          (closeSubmenus T (setHov s n i true) n).sel k =
          (setHov s n i true).sel k
      · rw [ht.1, ht.2, setHov_enb, setHov_sel]
        exact ⟨rfl, rfl⟩
      · exfalso
        have := closeSubmenus_touch T hsub (setHov s n i true) n k ht c' hc'mem
        rw [hs2def, if_pos hcond, hoverSwitchAux, setHov_enb] at hc'E
        rw [this] at hc'E
        cases hc'E
    · rw [if_neg hcond, setHov_enb, setHov_sel]
      exact ⟨rfl, rfl⟩
  have F6 : ∀ i' c', itemSubOf T n i' = some c' → s2.enb c' = true →
      i' = i := by
    intro i' c' hic' hc'E
    rw [hs2def] at hc'E
    by_cases hcond : s.sel n ≠ -1 ∧ s.sel n ≠ (i : Int)
    · exfalso
      rw [if_pos hcond, hoverSwitchAux, setHov_enb] at hc'E
      have := (closeSubmenus_members T hsub (setHov s n i true) n c'
        (wf_refs hw n i' c' hic')).1
      rw [this] at hc'E
      cases hc'E
    · rw [if_neg hcond, setHov_enb] at hc'E
      obtain ⟨-, hse⟩ := h1 n i' c' hic' hc'E
      rcases not_and_or.mp hcond with hcsel | hcsel
      · rw [not_not.mp hcsel] at hse
        exfalso
        omega
      · have : s.sel n = (i : Int) := not_not.mp hcsel
        rw [this] at hse
        exact_mod_cast hse.symm
  rcases hc : itemSubOf T n i with _ | c
  all_goals rw [updateHover_split]
  all_goals simp only [hc, ← hs2def]
  · constructor
    · intro n' i' c' hic' hcE'
      rw [setSel_enb] at hcE'
      by_cases hn'n : n' = n
      · subst hn'n
        have hii : i' = i := F6 i' c' hic' hcE'
        rw [hii, hc] at hic'
        cases hic'
      · obtain ⟨hsE, hkeep⟩ : s.enb c' = true ∧
            (s2.enb n' = s.enb n' ∧ s2.sel n' = s.sel n') := by
          refine ⟨F1 c' hcE', F4 n' hn'n ⟨c', hcE', wf_refs hw n' i' c' hic'⟩⟩
        obtain ⟨hne, hse⟩ := h1 n' i' c' hic' hsE
        rw [setSel_enb, setSel_sel, if_neg hn'n, hkeep.1, hkeep.2]
        exact ⟨hne, hse⟩
    · intro m hm
      rw [setSel_sel]
      by_cases hmn : m = n
      · subst hmn
        right
        rw [if_pos rfl]
        refine ⟨by omega, by exact_mod_cast hi, ?_⟩
        rw [Int.toNat_natCast]
        exact allEnabled_dis hae m i hi
      · rw [if_neg hmn]
        rcases F3 m with he | he
        · rw [he]; exact h2 m hm
        · rw [he]; exact Or.inl rfl
  · constructor
    · intro n' i' c' hic' hcE'
      rw [openMenuS_enb, setSel_enb] at hcE'
      by_cases hcc : c' = c
      · subst hcc
        obtain ⟨h1n, h1i⟩ := wf_uniq hw n' i' n i c' hic' hc
        rw [h1n, h1i]
        have hcn : n ≠ c' := Nat.ne_of_gt (wf_ref_lt hw n i c' hc)
        rw [openMenuS_enb, if_neg hcn, setSel_enb, F2,
          openMenuS_sel, setSel_sel, if_pos rfl]
        exact ⟨henb, rfl⟩
      · rw [if_neg hcc] at hcE'
        by_cases hn'n : n' = n
        · subst hn'n
          have hii : i' = i := F6 i' c' hic' hcE'
          rw [hii, hc] at hic'
          cases hic'
          exact absurd rfl hcc
        · obtain ⟨hsE, hkeep⟩ : s.enb c' = true ∧
              (s2.enb n' = s.enb n' ∧ s2.sel n' = s.sel n') := by
            refine ⟨F1 c' hcE', F4 n' hn'n ⟨c', hcE', wf_refs hw n' i' c' hic'⟩⟩
          obtain ⟨hne, hse⟩ := h1 n' i' c' hic' hsE
          rw [openMenuS_enb, setSel_enb, openMenuS_sel, setSel_sel, if_neg hn'n,
            hkeep.2]
          refine ⟨?_, hse⟩
          by_cases hn'c : n' = c
          · rw [if_pos hn'c]
          · rw [if_neg hn'c, hkeep.1]; exact hne
    · intro m hm
      rw [openMenuS_sel, setSel_sel]
      by_cases hmn : m = n
      · subst hmn
        right
        rw [if_pos rfl]
        refine ⟨by omega, by exact_mod_cast hi, ?_⟩
        rw [Int.toNat_natCast]
        exact allEnabled_dis hae m i hi
      · rw [if_neg hmn]
        rcases F3 m with he | he
        · rw [he]; exact h2 m hm
        · rw [he]; exact Or.inl rfl


/-! ## Invariant preservation: `update_normal`, `on_release`, mouse -/

/-- `update_normal` with the hover write pushed inward and the
conditions expressed on the incoming state. -/
theorem updateNormal_split (T : List PNode) (s : DState) (n i : Nat)
    (inside : Bool) :
    updateNormal T s n i inside =
      match itemSubOf T n i with
      | none =>
          if s.sel n = (i : Int) then setSel (setHov s n i false) n (-1)
          else setHov s n i false
      | some c =>
          if s.enb c = false then
            (if s.sel n = (i : Int) then setSel (setHov s n i false) n (-1)
             else setHov s n i false)
          else if !inside then closeMenu T (setHov s n i false) c
          else setHov s n i false := rfl

/-- The pointer-leave hook preserves both invariants. -/
theorem updateNormal_inv (T : List PNode) (hw : treeWF T = true)
    (s : DState) (n i : Nat) (inside : Bool)
    (h1 : Inv1 T s) (h2 : Inv2 T s) :
    Inv1 T (updateNormal T s n i inside) ∧
    Inv2 T (updateNormal T s n i inside) := by
  have hclear : (itemSubOf T n i = none ∨
      ∃ c, itemSubOf T n i = some c ∧ s.enb c = false) →
      s.sel n = (i : Int) →
      Inv1 T (setSel (setHov s n i false) n (-1)) ∧
      Inv2 T (setSel (setHov s n i false) n (-1)) := by
    intro hcl hseln
    constructor
    · intro n' i' c' hic' hcE'
      rw [setSel_enb, setHov_enb] at hcE'
      obtain ⟨hne, hse⟩ := h1 n' i' c' hic' hcE'
      by_cases hn'n : n' = n
      · exfalso
        subst hn'n
        have hii : (i' : Int) = (i : Int) := by rw [← hse, hseln]
        have hii' : i' = i := by exact_mod_cast hii
        subst hii'
        rcases hcl with hcl | ⟨c, hcc, hcenb⟩
        · rw [hic'] at hcl; cases hcl
        · have hcc2 : c' = c := Option.some.inj (hic'.symm.trans hcc)
          rw [hcc2, hcenb] at hcE'
          cases hcE'
      · rw [setSel_enb, setHov_enb, setSel_sel, if_neg hn'n, setHov_sel]
        exact ⟨hne, hse⟩
    · intro m hm
      rw [setSel_sel]
      by_cases hmn : m = n
      · rw [if_pos hmn]; exact Or.inl rfl
      · rw [if_neg hmn, setHov_sel]; exact h2 m hm
  rw [updateNormal_split]
  rcases hci : itemSubOf T n i with _ | c
  · simp only [hci]
    by_cases hs : s.sel n = (i : Int)
    · rw [if_pos hs]
      exact hclear (Or.inl hci) hs
    · rw [if_neg hs]
      exact ⟨h1, h2⟩
  · simp only [hci]
    by_cases hce : s.enb c = false
    · rw [if_pos hce]
      by_cases hs : s.sel n = (i : Int)
      · rw [if_pos hs]
        exact hclear (Or.inr ⟨c, hci, hce⟩) hs
      · rw [if_neg hs]
        exact ⟨h1, h2⟩
    · rw [if_neg hce]
      by_cases hins : (!inside) = true
      · rw [if_pos hins]
        exact ⟨closeMenuF_inv1 T hw (c + 1) c (Nat.lt_succ_self c) _ h1,
               closeMenuF_inv2 T (c + 1) c _ h2⟩
      · rw [if_neg hins]
        exact ⟨h1, h2⟩

/-- `on_release` on the item the selection rests on preserves both
invariants. -/
theorem onReleaseS_inv (T : List PNode) (hw : treeWF T = true)
    (VH VW : Nat) (s : DState) (n i : Nat)
    (hn : n < T.length) (henb : s.enb n = true) (hsel : s.sel n = (i : Int))
    (h1 : Inv1 T s) (h2 : Inv2 T s) :
    Inv1 T (onReleaseS T VH VW s n i).1 ∧ Inv2 T (onReleaseS T VH VW s n i).1 := by
  rcases hci : itemSubOf T n i with _ | c
  · rcases hcb : itemCbOf T n i with _ | cb
    · have heq : (onReleaseS T VH VW s n i).1 = s := by
        simp only [onReleaseS, hci, hcb]
      rw [heq]; exact ⟨h1, h2⟩
    · have heq : (onReleaseS T VH VW s n i).1 = closeParents T s n := by
        simp only [onReleaseS, hci, hcb]
      rw [heq]
      exact ⟨closeParents_inv1 T hw s n h1, closeParents_inv2 T hw s n h2⟩
  · have heq : (onReleaseS T VH VW s n i).1 = openMenuS T VH VW s c := by
      simp only [onReleaseS, hci]
    rw [heq]
    constructor
    · intro n' i' c' hic' hcE'
      rw [openMenuS_enb] at hcE'
      by_cases hcc : c' = c
      · rw [hcc] at hic'
        obtain ⟨h1n, h1i⟩ := wf_uniq hw n' i' n i c hic' hci
        rw [h1n, h1i]
        have hcn : n ≠ c := Nat.ne_of_gt (wf_ref_lt hw n i c hci)
        rw [openMenuS_enb, if_neg hcn, openMenuS_sel]
        exact ⟨henb, hsel⟩
      · rw [if_neg hcc] at hcE'
        obtain ⟨hne, hse⟩ := h1 n' i' c' hic' hcE'
        rw [openMenuS_enb, openMenuS_sel]
        refine ⟨?_, hse⟩
        by_cases hn'c : n' = c
        · rw [if_pos hn'c]
        · rw [if_neg hn'c]; exact hne
    · intro m hm
      rw [openMenuS_sel]
      exact h2 m hm

/-- Opening the root preserves both invariants: the root is never
referenced as anyone's submenu. -/
theorem openRoot_inv (T : List PNode) (hw : treeWF T = true)
    (VH VW : Nat) (s : DState) (y x : Int)
    (h1 : Inv1 T s) (h2 : Inv2 T s) :
    Inv1 T (stepEv T VH VW s (.openRoot y x)) ∧
    Inv2 T (stepEv T VH VW s (.openRoot y x)) := by
  have heq : stepEv T VH VW s (.openRoot y x) =
      openMenuS T VH VW (setPos s (T.length - 1) y x) (T.length - 1) := rfl
  rw [heq]
  constructor
  · intro n' i' c' hic' hcE'
    rw [openMenuS_enb, setPos_enb] at hcE'
    by_cases hcc : c' = T.length - 1
    · exfalso
      rw [hcc] at hic'
      have hlt := wf_ref_lt hw n' i' (T.length - 1) hic'
      have hb := (itemSubOf_bounds hic').1
      omega
    · rw [if_neg hcc] at hcE'
      obtain ⟨hne, hse⟩ := h1 n' i' c' hic' hcE'
      rw [openMenuS_enb, setPos_enb, openMenuS_sel, setPos_sel]
      refine ⟨?_, hse⟩
      by_cases hn'r : n' = T.length - 1
      · rw [if_pos hn'r]
      · rw [if_neg hn'r]; exact hne
  · intro m hm
    rw [openMenuS_sel, setPos_sel]
    exact h2 m hm

/-- The root mouse dispatcher preserves both invariants: it either
closes the root's whole menu tree or leaves the state unchanged. -/
theorem dispatchMouseS_inv (T : List PNode) (hw : treeWF T = true)
    (s : DState) (r : Nat) (ty : METype) (y x : Int)
    (h1 : Inv1 T s) (h2 : Inv2 T s) :
    Inv1 T (dispatchMouseS T s r ty y x).1 ∧
    Inv2 T (dispatchMouseS T s r ty y x).1 := by
  by_cases hcnd : ((parOf T r).isNone && (ty == .down) &&
      !((subsOf T r).any fun m =>
          s.enb m &&
            ((List.range (itemsOf T m).length).any fun i =>
              collidesItem T s m i y x))) = true
  · have heq : (dispatchMouseS T s r ty y x).1 = closeMenu T s r := by
      simp only [dispatchMouseS, if_pos hcnd]
    rw [heq]
    exact ⟨closeMenuF_inv1 T hw (r + 1) r (Nat.lt_succ_self r) s h1,
           closeMenuF_inv2 T (r + 1) r s h2⟩
  · have heq : (dispatchMouseS T s r ty y x).1 = s := by
      simp only [dispatchMouseS, if_neg hcnd]
    rw [heq]
    exact ⟨h1, h2⟩


/-! ## Invariant preservation: key handling -/

theorem onKeyF_succ (T : List PNode) (VH VW fuel : Nat) (s : DState)
    (n : Nat) (k : MKey) :
    onKeyF T VH VW (fuel + 1) s n k =
      match (subsOf T n).find? (fun m => s.enb m) with
      | some m =>
          let r := onKeyF T VH VW fuel s m k
          if r.2.1 then r else onKeyLocal T VH VW r.1 n k
      | none => onKeyLocal T VH VW s n k := rfl

/-- A failed up/down scan leaves the state exactly as given. -/
theorem upDownLocal_ncons (T : List PNode) (VH VW : Nat) (s0 : DState)
    (n : Nat) (stepIdx : Nat → Nat) (start : Nat)
    (h : (upDownLocal T VH VW s0 n stepIdx start).2 = false) :
    (upDownLocal T VH VW s0 n stepIdx start).1 = s0 := by
  rcases hscan : scanF (itemsOf T n) stepIdx start (itemsOf T n).length with _ | j
  · rw [upDownLocal_notfound T VH VW s0 n stepIdx start hscan]
  · have h2 : (upDownLocal T VH VW s0 n stepIdx start).2 = true := by
      simp only [upDownLocal, hscan]
    rw [h2] at h
    cases h

/-- A key event the local handler does not consume leaves every open
flag and selection unchanged (only a hover highlight may drop). -/
theorem onKeyLocal_ncons (T : List PNode) (VH VW : Nat) (s : DState)
    (n : Nat) (k : MKey) (h : (onKeyLocal T VH VW s n k).2.1 = false) :
    (onKeyLocal T VH VW s n k).1.enb = s.enb ∧
    (onKeyLocal T VH VW s n k).1.sel = s.sel := by
  match k with
  | .up =>
      rw [onKeyLocal_up_eq] at h ⊢
      by_cases hsel : s.sel n = -1
      · rw [if_pos hsel] at h ⊢
        rw [upDownLocal_ncons T VH VW s n _ _ h]
        exact ⟨rfl, rfl⟩
      · rw [if_neg hsel] at h ⊢
        rw [upDownLocal_ncons T VH VW _ n _ _ h]
        exact ⟨rfl, rfl⟩
  | .down =>
      rw [onKeyLocal_down_eq] at h ⊢
      by_cases hsel : s.sel n = -1
      · rw [if_pos hsel] at h ⊢
        rw [upDownLocal_ncons T VH VW s n _ _ h]
        exact ⟨rfl, rfl⟩
      · rw [if_neg hsel] at h ⊢
        rw [upDownLocal_ncons T VH VW _ n _ _ h]
        exact ⟨rfl, rfl⟩
  | .left =>
      by_cases hsel : s.sel n ≠ -1
      · rcases hci : itemSubOf T n (s.sel n).toNat with _ | c
        · have heq : onKeyLocal T VH VW s n .left = (s, false, []) := by
            simp only [onKeyLocal, hci, if_pos hsel]
          rw [heq]
          exact ⟨rfl, rfl⟩
        · by_cases henb : s.enb c = true
          · exfalso
            have heq : onKeyLocal T VH VW s n .left =
                (closeMenu T s c, true, []) := by
              simp only [onKeyLocal, hci, if_pos hsel, if_pos henb]
            rw [heq] at h
            cases h
          · have heq : onKeyLocal T VH VW s n .left = (s, false, []) := by
              simp only [onKeyLocal, hci, if_pos hsel, if_neg henb]
            rw [heq]
            exact ⟨rfl, rfl⟩
      · have heq : onKeyLocal T VH VW s n .left = (s, false, []) := by
          simp only [onKeyLocal, if_neg hsel]
        rw [heq]
        exact ⟨rfl, rfl⟩
  | .right =>
      by_cases hsel : s.sel n ≠ -1
      · rcases hci : itemSubOf T n (s.sel n).toNat with _ | c
        · have heq : onKeyLocal T VH VW s n .right = (s, false, []) := by
            simp only [onKeyLocal, hci, if_pos hsel]
          rw [heq]
          exact ⟨rfl, rfl⟩
        · by_cases henb : s.enb c = true
          · have heq : onKeyLocal T VH VW s n .right = (s, false, []) := by
              simp only [onKeyLocal, hci, if_pos hsel, if_pos henb]
            rw [heq]
            exact ⟨rfl, rfl⟩
          · exfalso
            have heq : (onKeyLocal T VH VW s n .right).2.1 = true := by
              simp only [onKeyLocal, hci, if_pos hsel, if_neg henb]
            rw [heq] at h
            cases h
      · have heq : onKeyLocal T VH VW s n .right = (s, false, []) := by
          simp only [onKeyLocal, if_neg hsel]
        rw [heq]
        exact ⟨rfl, rfl⟩
  | .enter =>
      by_cases hcnd : s.sel n ≠ -1 ∧ itemSubOf T n (s.sel n).toNat = none
      · exfalso
        have heq : (onKeyLocal T VH VW s n .enter).2.1 = true := by
          simp only [onKeyLocal, if_pos hcnd]
        rw [heq] at h
        cases h
      · have heq : onKeyLocal T VH VW s n .enter = (s, false, []) := by
          simp only [onKeyLocal, if_neg hcnd]
        rw [heq]
        exact ⟨rfl, rfl⟩
  | .otherK => exact ⟨rfl, rfl⟩

/-- A key event `on_key` does not consume leaves every open flag and
selection unchanged. -/
theorem onKeyF_ncons (T : List PNode) (VH VW : Nat) :
    ∀ fuel s n k, (onKeyF T VH VW fuel s n k).2.1 = false →
      (onKeyF T VH VW fuel s n k).1.enb = s.enb ∧
      (onKeyF T VH VW fuel s n k).1.sel = s.sel := by
  intro fuel
  induction fuel with
  | zero => intro s n k _; exact ⟨rfl, rfl⟩
  | succ fuel ih =>
      intro s n k h
      rw [onKeyF_succ] at h ⊢
      rcases hf : (subsOf T n).find? (fun m => s.enb m) with _ | m
      · simp only [hf] at h ⊢
        exact onKeyLocal_ncons T VH VW s n k h
      · simp only [hf] at h ⊢
        by_cases hc : (onKeyF T VH VW fuel s m k).2.1 = true
        · rw [if_pos hc] at h
          rw [hc] at h
          cases h
        · rw [if_neg hc] at h ⊢
          have hnc : (onKeyF T VH VW fuel s m k).2.1 = false :=
            Bool.eq_false_iff.mpr hc
          obtain ⟨he1, hs1⟩ := ih s m k hnc
          obtain ⟨he2, hs2⟩ := onKeyLocal_ncons T VH VW _ n k h
          exact ⟨he2.trans he1, hs2.trans hs1⟩


/-- Closing node `n`'s submenus after a state change that at most opened
the submenu of item `j` of `n`, set `n`'s selection to `j`, and touched
nothing else, restores both invariants. -/
theorem closeSubmenus_inv_aux (T : List PNode) (hw : treeWF T = true)
    (hae : allItemsEnabled T = true) (s0 u : DState) (n j : Nat)
    (hn : n < T.length) (hj : j < (itemsOf T n).length)
    (HA : ∀ k, u.enb k = true → itemSubOf T n j = some k ∨ s0.enb k = true)
    (HB : ∀ k, s0.enb k = true → u.enb k = true)
    (HC : ∀ k, u.sel k = if k = n then (j : Int) else s0.sel k)
    (h1 : Inv1 T s0) (h2 : Inv2 T s0) :
    Inv1 T (closeSubmenus T u n) ∧ Inv2 T (closeSubmenus T u n) := by
  have hsub := wf_subs_lt hw
  constructor
  · intro n' i' c' hic' hcE'
    by_cases hn'n : n' = n
    · exfalso
      rw [hn'n] at hic'
      have := (closeSubmenus_members T hsub u n c' (wf_refs hw n i' c' hic')).1
      rw [this] at hcE'
      cases hcE'
    · have huE : u.enb c' = true := closeSubmenus_enb_mono T u n c' hcE'
      rcases HA c' huE with hop | hsE
      · exfalso
        obtain ⟨h1n, -⟩ := wf_uniq hw n' i' n j c' hic' hop
        exact hn'n h1n
      · obtain ⟨hne, hse⟩ := h1 n' i' c' hic' hsE
        by_cases ht : (closeSubmenus T u n).enb n' = u.enb n' ∧
            (closeSubmenus T u n).sel n' = u.sel n'
        · rw [ht.1, ht.2, HC n', if_neg hn'n]
          exact ⟨HB n' hne, hse⟩
        · exfalso
          have := closeSubmenus_touch T hsub u n n' ht c'
            (wf_refs hw n' i' c' hic')
          rw [this] at hcE'
          cases hcE'
  · refine inv2_of_sel_cases (fun k => closeSubmenus_sel_cases T u n k) ?_
    intro m hm
    rw [HC m]
    by_cases hmn : m = n
    · subst hmn
      right
      rw [if_pos rfl]
      refine ⟨by omega, by exact_mod_cast hj, ?_⟩
      rw [Int.toNat_natCast]
      exact allEnabled_dis hae m j hj
    · rw [if_neg hmn]
      exact h2 m hm

/-- The shared up/down body preserves both invariants. -/
theorem upDownLocal_inv (T : List PNode) (hw : treeWF T = true)
    (hae : allItemsEnabled T = true) (VH VW : Nat) (s0 : DState) (n : Nat)
    (stepIdx : Nat → Nat) (start : Nat)
    (hn : n < T.length) (henb : s0.enb n = true)
    (h1 : Inv1 T s0) (h2 : Inv2 T s0) :
    Inv1 T (upDownLocal T VH VW s0 n stepIdx start).1 ∧
    Inv2 T (upDownLocal T VH VW s0 n stepIdx start).1 := by
  rcases hscan : scanF (itemsOf T n) stepIdx start (itemsOf T n).length with _ | j
  · rw [upDownLocal_notfound T VH VW s0 n stepIdx start hscan]
    exact ⟨h1, h2⟩
  · have heq : (upDownLocal T VH VW s0 n stepIdx start).1 =
        closeSubmenus T (updateHover T VH VW (setSel s0 n (j : Int)) n j) n := by
      simp only [upDownLocal, hscan]
    have hdis := scanF_some_dis (itemsOf T n) stepIdx _ _ _ hscan
    have hj : j < (itemsOf T n).length := by
      by_contra hge
      rw [List.get?_eq_none.mpr (Nat.le_of_not_lt hge)] at hdis
      simp at hdis
    have hcondF : ¬((setSel s0 n (j : Int)).sel n ≠ -1 ∧
        (setSel s0 n (j : Int)).sel n ≠ (j : Int)) := by
      intro hcon
      exact hcon.2 (by rw [setSel_sel, if_pos rfl])
    have HCw : ∀ k,
        (setSel (setHov (setSel s0 n (j : Int)) n j true) n (j : Int)).sel k =
          if k = n then (j : Int) else s0.sel k := by
      intro k
      rw [setSel_sel]
      by_cases hkn : k = n
      · rw [if_pos hkn, if_pos hkn]
      · rw [if_neg hkn, if_neg hkn, setHov_sel, setSel_sel, if_neg hkn]
    rw [heq]
    rcases hcj : itemSubOf T n j with _ | c0
    · have hu : updateHover T VH VW (setSel s0 n (j : Int)) n j =
          setSel (setHov (setSel s0 n (j : Int)) n j true) n (j : Int) := by
        rw [updateHover_split]
        simp only [hcj, if_neg hcondF]
      rw [hu]
      refine closeSubmenus_inv_aux T hw hae s0 _ n j hn hj ?_ ?_ HCw h1 h2
      · intro k hk
        exact Or.inr hk
      · intro k hk
        exact hk
    · have hu : updateHover T VH VW (setSel s0 n (j : Int)) n j =
          openMenuS T VH VW
            (setSel (setHov (setSel s0 n (j : Int)) n j true) n (j : Int)) c0 := by
        rw [updateHover_split]
        simp only [hcj, if_neg hcondF]
      rw [hu]
      refine closeSubmenus_inv_aux T hw hae s0 _ n j hn hj ?_ ?_ ?_ h1 h2
      · intro k hk
        rw [openMenuS_enb] at hk
        by_cases hkc : k = c0
        · left
          rw [hkc]
          exact hcj
        · rw [if_neg hkc] at hk
          exact Or.inr hk
      · intro k hk
        rw [openMenuS_enb]
        by_cases hkc : k = c0
        · rw [if_pos hkc]
        · rw [if_neg hkc]
          exact hk
      · intro k
        rw [openMenuS_sel]
        exact HCw k

/-- The local key handler preserves both invariants when delivered to an
open in-range menu. -/
theorem onKeyLocal_inv (T : List PNode) (hw : treeWF T = true)
    (hae : allItemsEnabled T = true) (VH VW : Nat) (s : DState) (n : Nat)
    (k : MKey) (hn : n < T.length) (henb : s.enb n = true)
    (h1 : Inv1 T s) (h2 : Inv2 T s) :
    Inv1 T (onKeyLocal T VH VW s n k).1 ∧ Inv2 T (onKeyLocal T VH VW s n k).1 := by
  match k with
  | .up =>
      rw [onKeyLocal_up_eq]
      by_cases hsel : s.sel n = -1
      · rw [if_pos hsel]
        exact upDownLocal_inv T hw hae VH VW s n _ _ hn henb h1 h2
      · rw [if_neg hsel]
        exact upDownLocal_inv T hw hae VH VW
          (setHov s n (s.sel n).toNat false) n _ _ hn henb h1 h2
  | .down =>
      rw [onKeyLocal_down_eq]
      by_cases hsel : s.sel n = -1
      · rw [if_pos hsel]
        exact upDownLocal_inv T hw hae VH VW s n _ _ hn henb h1 h2
      · rw [if_neg hsel]
        exact upDownLocal_inv T hw hae VH VW
          (setHov s n (s.sel n).toNat false) n _ _ hn henb h1 h2
  | .left =>
      by_cases hsel : s.sel n ≠ -1
      · rcases hci : itemSubOf T n (s.sel n).toNat with _ | c
        · have heq : (onKeyLocal T VH VW s n .left).1 = s := by
            simp only [onKeyLocal, hci, if_pos hsel]
          rw [heq]; exact ⟨h1, h2⟩
        · by_cases hce : s.enb c = true
          · have heq : (onKeyLocal T VH VW s n .left).1 = closeMenu T s c := by
              simp only [onKeyLocal, hci, if_pos hsel, if_pos hce]
            rw [heq]
            exact ⟨closeMenuF_inv1 T hw (c + 1) c (Nat.lt_succ_self c) s h1,
                   closeMenuF_inv2 T (c + 1) c s h2⟩
          · have heq : (onKeyLocal T VH VW s n .left).1 = s := by
              simp only [onKeyLocal, hci, if_pos hsel, if_neg hce]
            rw [heq]; exact ⟨h1, h2⟩
      · have heq : (onKeyLocal T VH VW s n .left).1 = s := by
          simp only [onKeyLocal, if_neg hsel]
        rw [heq]; exact ⟨h1, h2⟩
  | .right =>
      by_cases hsel : s.sel n ≠ -1
      · rcases hci : itemSubOf T n (s.sel n).toNat with _ | c
        · have heq : (onKeyLocal T VH VW s n .right).1 = s := by
            simp only [onKeyLocal, hci, if_pos hsel]
          rw [heq]; exact ⟨h1, h2⟩
        · by_cases hce : s.enb c = true
          · have heq : (onKeyLocal T VH VW s n .right).1 = s := by
              simp only [onKeyLocal, hci, if_pos hsel, if_pos hce]
            rw [heq]; exact ⟨h1, h2⟩
          · have hclt : c < n := wf_ref_lt hw n (s.sel n).toNat c hci
            have hcln : c < T.length := Nat.lt_trans hclt hn
            have hselpos : 0 ≤ s.sel n := by
              rcases h2 n hn with h | h
              · exact absurd h hsel
              · exact h.1
            have hselc : ((s.sel n).toNat : Int) = s.sel n :=
              Int.toNat_of_nonneg hselpos
            have hi1 : Inv1 T (openMenuS T VH VW s c) := by
              intro n' i' c' hic' hcE'
              rw [openMenuS_enb] at hcE'
              by_cases hcc : c' = c
              · rw [hcc] at hic'
                obtain ⟨h1n, h1i⟩ :=
                  wf_uniq hw n' i' n (s.sel n).toNat c hic' hci
                rw [h1n, h1i]
                have hcn : n ≠ c := Nat.ne_of_gt hclt
                rw [openMenuS_enb, if_neg hcn, openMenuS_sel]
                exact ⟨henb, hselc.symm⟩
              · rw [if_neg hcc] at hcE'
                obtain ⟨hne, hse⟩ := h1 n' i' c' hic' hcE'
                rw [openMenuS_enb, openMenuS_sel]
                refine ⟨?_, hse⟩
                by_cases hn'c : n' = c
                · rw [if_pos hn'c]
                · rw [if_neg hn'c]; exact hne
            have hi2 : Inv2 T (openMenuS T VH VW s c) := by
              intro m hm
              rw [openMenuS_sel]
              exact h2 m hm
            by_cases hlen : (itemsOf T c).length ≠ 0
            · have heq : (onKeyLocal T VH VW s n .right).1 =
                  closeSubmenus T
                    (updateHover T VH VW (openMenuS T VH VW s c) c 0) c := by
                simp only [onKeyLocal, hci, if_pos hsel, if_neg hce,
                  if_pos hlen]
              rw [heq]
              have henbc : (openMenuS T VH VW s c).enb c = true := by
                rw [openMenuS_enb, if_pos rfl]
              obtain ⟨hu1, hu2⟩ := updateHover_inv T hw hae VH VW
                (openMenuS T VH VW s c) c 0 hcln henbc
                (Nat.pos_of_ne_zero hlen) hi1 hi2
              exact ⟨closeSubmenus_inv1 T hw _ c hu1,
                     closeSubmenus_inv2 T _ c hu2⟩
            · have heq : (onKeyLocal T VH VW s n .right).1 =
                  openMenuS T VH VW s c := by
                simp only [onKeyLocal, hci, if_pos hsel, if_neg hce,
                  if_neg hlen]
              rw [heq]
              exact ⟨hi1, hi2⟩
      · have heq : (onKeyLocal T VH VW s n .right).1 = s := by
          simp only [onKeyLocal, if_neg hsel]
        rw [heq]; exact ⟨h1, h2⟩
  | .enter =>
      by_cases hcnd : s.sel n ≠ -1 ∧ itemSubOf T n (s.sel n).toNat = none
      · have heq : (onKeyLocal T VH VW s n .enter).1 =
            (onReleaseS T VH VW s n (s.sel n).toNat).1 := by
          simp only [onKeyLocal, if_pos hcnd]
        rw [heq]
        have hselpos : 0 ≤ s.sel n := by
          rcases h2 n hn with h | h
          · exact absurd h hcnd.1
          · exact h.1
        exact onReleaseS_inv T hw VH VW s n (s.sel n).toNat hn henb
          (Int.toNat_of_nonneg hselpos).symm h1 h2
      · have heq : (onKeyLocal T VH VW s n .enter).1 = s := by
          simp only [onKeyLocal, if_neg hcnd]
        rw [heq]; exact ⟨h1, h2⟩
  | .otherK => exact ⟨h1, h2⟩

/-- The fueled `on_key` preserves both invariants. -/
theorem onKeyF_inv (T : List PNode) (hw : treeWF T = true)
    (hae : allItemsEnabled T = true) (VH VW : Nat) :
    ∀ fuel s n k, n < T.length → s.enb n = true → Inv1 T s → Inv2 T s →
      Inv1 T (onKeyF T VH VW fuel s n k).1 ∧
      Inv2 T (onKeyF T VH VW fuel s n k).1 := by
  intro fuel
  induction fuel with
  | zero => intro s n k _ _ h1 h2; exact ⟨h1, h2⟩
  | succ fuel ih =>
      intro s n k hn henb h1 h2
      rw [onKeyF_succ]
      rcases hf : (subsOf T n).find? (fun m => s.enb m) with _ | m
      · simp only [hf]
        exact onKeyLocal_inv T hw hae VH VW s n k hn henb h1 h2
      · simp only [hf]
        have hmem := List.mem_of_find?_eq_some hf
        have hmE : s.enb m = true := by simpa using List.find?_some hf
        have hmlt : m < n := wf_subs_lt hw n m hmem
        have hr := ih s m k (Nat.lt_trans hmlt hn) hmE h1 h2
        by_cases hc : (onKeyF T VH VW fuel s m k).2.1 = true
        · rw [if_pos hc]
          exact hr
        · rw [if_neg hc]
          have hnc : (onKeyF T VH VW fuel s m k).2.1 = false :=
            Bool.eq_false_iff.mpr hc
          obtain ⟨hee, hss⟩ := onKeyF_ncons T VH VW fuel s m k hnc
          refine onKeyLocal_inv T hw hae VH VW _ n k hn ?_ ?_ ?_
          · rw [hee]; exact henb
          · intro n' i' c' hic' hcE'
            rw [hee] at hcE'
            rw [hee, hss]
            exact h1 n' i' c' hic' hcE'
          · intro m' hm'
            rw [hss]
            exact h2 m' hm'


/-! ## Reachability invariants -/

/-- The built arena's initial state satisfies both invariants. -/
theorem builtOK_inv_init {T : List PNode} (hb : BuiltOK 0 T) :
    Inv1 T (initState T) ∧ Inv2 T (initState T) := by
  have hw := builtOK_treeWF hb
  constructor
  · intro n' i' c' hic' hcE'
    exfalso
    have hc' : c' = T.length - 1 := (builtOK_init_enb hb c').mp hcE'
    have hlt := wf_ref_lt hw n' i' c' hic'
    have hbnd := (itemSubOf_bounds hic').1
    omega
  · intro m hm
    rw [builtOK_init_sel hb m]
    exact Or.inl rfl

/-- Every reachable state of a built arena satisfies both invariants. -/
theorem reach_inv {T : List PNode} (hb : BuiltOK 0 T) (VH VW : Nat) :
    ∀ s, Reach T VH VW s → Inv1 T s ∧ Inv2 T s := by
  have hw := builtOK_treeWF hb
  have hae := builtOK_allEnabled hb
  intro s hr
  induction hr with
  | init => exact builtOK_inv_init hb
  | @step s' e hprev hvalid ih =>
      obtain ⟨ih1, ih2⟩ := ih
      cases e with
      | openRoot y x => exact openRoot_inv T hw VH VW s' y x ih1 ih2
      | closeRoot =>
          exact ⟨closeMenuF_inv1 T hw (T.length - 1 + 1) (T.length - 1)
              (Nat.lt_succ_self _) s' ih1,
            closeMenuF_inv2 T (T.length - 1 + 1) (T.length - 1) s' ih2⟩
      | key n k =>
          obtain ⟨hn, henb⟩ := hvalid
          exact onKeyF_inv T hw hae VH VW (n + 1) s' n k hn henb ih1 ih2
      | hoverEnter n i =>
          obtain ⟨hn, henb, hi⟩ := hvalid
          exact updateHover_inv T hw hae VH VW s' n i hn henb hi ih1 ih2
      | hoverLeave n i inside =>
          obtain ⟨hn, hi⟩ := hvalid
          exact updateNormal_inv T hw s' n i inside ih1 ih2
      | release n i =>
          obtain ⟨hn, henb, hi, hsel⟩ := hvalid
          exact onReleaseS_inv T hw VH VW s' n i hn henb hsel ih1 ih2
      | press ty y x =>
          exact dispatchMouseS_inv T hw s' (T.length - 1) ty y x ih1 ih2

/-- On a built arena `close_parents` from any in-range node is
`close_menu` at the root (the only parentless node). -/
theorem closeParents_built {T : List PNode} (hb : BuiltOK 0 T)
    (s : DState) (n : Nat) (hn : n < T.length) :
    closeParents T s n = closeMenu T s (T.length - 1) := by
  have hlen := builtOK_len_pos hb
  rw [closeParents]
  by_cases hroot : n = T.length - 1
  · subst hroot
    have hp := builtOK_parOf hb (T.length - 1) (by omega)
    rw [if_pos rfl] at hp
    rw [show closeParentsF T (T.length + 1) s (T.length - 1) =
      (match parOf T (T.length - 1) with
       | none => closeMenu T s (T.length - 1)
       | some p => closeParentsF T T.length s p) from rfl, hp]
  · have hp := builtOK_parOf hb n hn
    rw [if_neg hroot] at hp
    rw [show closeParentsF T (T.length + 1) s n =
      (match parOf T n with
       | none => closeMenu T s n
       | some p => closeParentsF T T.length s p) from rfl, hp]
    have hproot := builtOK_parOf hb (T.length - 1) (by omega)
    rw [if_pos rfl] at hproot
    obtain ⟨L, hTl⟩ : ∃ L, T.length = L + 1 := ⟨T.length - 1, by omega⟩
    rw [hTl, Nat.add_sub_cancel] at hproot ⊢
    show closeParentsF T (L + 1) s L = closeMenu T s L
    rw [show closeParentsF T (L + 1) s L =
      (match parOf T L with
       | none => closeMenu T s L
       | some p => closeParentsF T L s p) from rfl, hproot]

/-! ## C1: the single-open-chain invariant -/

/-- C1: on every tree built from a specification and every reachable
state, each node has at most one open child submenu (two open children
of the same node coincide), and a submenu is open only when the menu
owning it is open. -/
theorem single_open_chain (fuel : Nat) (spec : List (String × SpecVal))
    (T : List PNode) (hb : buildF fuel 0 spec = .ok T) (VH VW : Nat)
    (s : DState) (hr : Reach T VH VW s) :
    (∀ n i1 c1 i2 c2, itemSubOf T n i1 = some c1 →
      itemSubOf T n i2 = some c2 →
      s.enb c1 = true → s.enb c2 = true → i1 = i2 ∧ c1 = c2) ∧
    (∀ n i c, itemSubOf T n i = some c → s.enb c = true →
      s.enb n = true) := by
  obtain ⟨h1, h2⟩ := reach_inv (buildF_ok fuel 0 spec T hb) VH VW s hr
  constructor
  · intro n i1 c1 i2 c2 hic1 hic2 hE1 hE2
    obtain ⟨-, hs1⟩ := h1 n i1 c1 hic1 hE1
    obtain ⟨-, hs2⟩ := h1 n i2 c2 hic2 hE2
    have hii : i1 = i2 := by
      have h12 := hs1.symm.trans hs2
      exact_mod_cast h12
    subst hii
    exact ⟨rfl, Option.some.inj (hic1.symm.trans hic2)⟩
  · intro n i c hic hE
    exact (h1 n i c hic hE).1

/-- C1 witness: the chain invariant applied to the File → Open tree in
the state reached by open-root, down, right: the open submenu (node 0)
forces its owner, the root (node 1), to be open. -/
theorem single_open_chain_witness :
    s6c2.enb 0 = true ∧ s6c2.enb 1 = true := by
  have hr0 : Reach T6c 20 20 (initState T6c) := Reach.init
  have hr1 := @Reach.step T6c 20 20 (initState T6c) (.openRoot 0 0) hr0 trivial
  have hr2 := @Reach.step T6c 20 20 s6c0 (.key 1 .down) hr1 ⟨by decide, by rfl⟩
  have hr3 := @Reach.step T6c 20 20 s6c1 (.key 1 .right) hr2 ⟨by decide, by rfl⟩
  have h := single_open_chain 3
    [("File", SpecVal.subV [("Open", SpecVal.cbV 1)])] T6c rfl 20 20 s6c2 hr3
  exact ⟨rfl, h.2 1 0 0 rfl rfl⟩

/-! ## C10: selection validity -/

/-- C10: on every tree built from a specification and every reachable
state, every in-range node's selection is -1 or a valid index of a
non-disabled item. -/
theorem selection_validity (fuel : Nat) (spec : List (String × SpecVal))
    (T : List PNode) (hb : buildF fuel 0 spec = .ok T) (VH VW : Nat)
    (s : DState) (hr : Reach T VH VW s) :
    ∀ n, n < T.length → s.sel n = -1 ∨
      (0 ≤ s.sel n ∧ s.sel n < ((itemsOf T n).length : Int) ∧
       itemDisabledOf T n (s.sel n).toNat = false) :=
  (reach_inv (buildF_ok fuel 0 spec T hb) VH VW s hr).2

/-- C10 witness: selection validity applied to the File → Open tree in
the state reached by open-root, down, right, at the root node. -/
theorem selection_validity_witness :
    s6c2.sel 1 = -1 ∨
      (0 ≤ s6c2.sel 1 ∧ s6c2.sel 1 < ((itemsOf T6c 1).length : Int) ∧
       itemDisabledOf T6c 1 (s6c2.sel 1).toNat = false) := by
  have hr0 : Reach T6c 20 20 (initState T6c) := Reach.init
  have hr1 := @Reach.step T6c 20 20 (initState T6c) (.openRoot 0 0) hr0 trivial
  have hr2 := @Reach.step T6c 20 20 s6c0 (.key 1 .down) hr1 ⟨by decide, by rfl⟩
  have hr3 := @Reach.step T6c 20 20 s6c1 (.key 1 .right) hr2 ⟨by decide, by rfl⟩
  exact selection_validity 3
    [("File", SpecVal.subV [("Open", SpecVal.cbV 1)])] T6c rfl 20 20 s6c2 hr3
    1 (by decide)

/-! ## C2: parent back-references (amended theorem) -/

/-- C2 (amended): on every tree built from a nested specification of any
depth, every non-root node's parent back-reference points to the root
(the last node yielded) -- the direct owner only for the root's own
children -- and every such node starts closed with selection -1; the
root itself is parentless. -/
theorem build_parent_backref_root (fuel : Nat) (spec : List (String × SpecVal))
    (T : List PNode) (hb : buildF fuel 0 spec = .ok T) :
    parOf T (T.length - 1) = none ∧
    ∀ n, n + 1 < T.length →
      parOf T n = some (T.length - 1) ∧
      (initState T).enb n = false ∧ (initState T).sel n = -1 := by
  have hok := buildF_ok fuel 0 spec T hb
  have hlen := builtOK_len_pos hok
  constructor
  · rw [builtOK_parOf hok (T.length - 1) (by omega), if_pos rfl]
  · intro n hn
    refine ⟨?_, ?_, builtOK_init_sel hok n⟩
    · rw [builtOK_parOf hok n (by omega), if_neg (by omega)]
    · have hiff := builtOK_init_enb hok n
      cases hE : (initState T).enb n
      · rfl
      · exfalso
        have := hiff.mp hE
        omega

/-- C2 witness: the amended parent theorem applied to the depth-3 tree
A → B → C: node 0 (the C-menu) points at the root, node 2, and starts
closed. -/
theorem build_parent_backref_root_witness :
    parOf TABC (TABC.length - 1) = none ∧
    parOf TABC 0 = some (TABC.length - 1) ∧
    (initState TABC).enb 0 = false := by
  have h := build_parent_backref_root 3 specABC TABC rfl
  have h0 := h.2 0 (by decide)
  exact ⟨h.1, h0.1, h0.2.1⟩

/-! ## C6: enter activation -/

/-- C6 (amended only in wording): an `enter` handled locally is consumed
exactly when the selection is on a submenu-less item; when that item has
a callback, the callback (alone) is invoked and -- on a built tree --
the close of the parent chain closes the root and with it every node of
the tree; and the concrete File → Open scenario: after open-root, down
(selects "File"), right (opens the submenu, selecting "Open"), an
`enter` is consumed, invokes callback 1 and leaves both the submenu and
the root closed. -/
theorem enter_activates (fuel : Nat) (spec : List (String × SpecVal))
    (T : List PNode) (hb : buildF fuel 0 spec = .ok T) (VH VW : Nat)
    (s : DState) (n : Nat) :
    ((onKeyLocal T VH VW s n .enter).2.1 = true ↔
      s.sel n ≠ -1 ∧ itemSubOf T n (s.sel n).toNat = none) ∧
    (∀ cb, n < T.length → s.sel n ≠ -1 →
      itemSubOf T n (s.sel n).toNat = none →
      itemCbOf T n (s.sel n).toNat = some cb →
      (onKeyLocal T VH VW s n .enter).2.2 = [cb] ∧
      (∀ m, m < T.length →
        (onKeyLocal T VH VW s n .enter).1.enb m = false)) ∧
    ((onKey T6c 20 20 s6c2 1 .enter).2.1 = true ∧
     (onKey T6c 20 20 s6c2 1 .enter).2.2 = [1] ∧
     (onKey T6c 20 20 s6c2 1 .enter).1.enb 0 = false ∧
     (onKey T6c 20 20 s6c2 1 .enter).1.enb 1 = false) := by
  have hok := buildF_ok fuel 0 spec T hb
  refine ⟨?_, ?_, rfl, rfl, rfl, rfl⟩
  · by_cases hcnd : s.sel n ≠ -1 ∧ itemSubOf T n (s.sel n).toNat = none
    · have heq : (onKeyLocal T VH VW s n .enter).2.1 = true := by
        simp only [onKeyLocal, if_pos hcnd]
      rw [heq]
      exact ⟨fun _ => hcnd, fun _ => rfl⟩
    · have heq : (onKeyLocal T VH VW s n .enter).2.1 = false := by
        simp only [onKeyLocal, if_neg hcnd]
      rw [heq]
      constructor
      · intro hcon; cases hcon
      · intro hc; exact absurd hc hcnd
  · intro cb hn hsel hsub hcb
    have heq : onKeyLocal T VH VW s n .enter =
        ((onReleaseS T VH VW s n (s.sel n).toNat).1, true,
         (onReleaseS T VH VW s n (s.sel n).toNat).2) := by
      simp only [onKeyLocal,
        if_pos (show s.sel n ≠ -1 ∧ itemSubOf T n (s.sel n).toNat = none from
          ⟨hsel, hsub⟩)]
    have hrel : onReleaseS T VH VW s n (s.sel n).toNat =
        (closeParents T s n, [cb]) := by
      simp only [onReleaseS, hsub, hcb]
    rw [heq, hrel]
    refine ⟨rfl, ?_⟩
    intro m hm
    show (closeParents T s n).enb m = false
    rw [closeParents_built hok s n hn]
    by_cases hmr : m = T.length - 1
    · subst hmr
      exact (closeMenuF_closes T (T.length - 1 + 1) (T.length - 1) s
        (by omega)).1
    · have hmem : m ∈ subsOf T (T.length - 1) := by
        rw [builtOK_subs_root hok]
        exact List.mem_range.mpr (by omega)
      exact (closeMenuF_closes_subs T (T.length - 1 + 1) (T.length - 1) s
        (by omega) m hmem).1

/-- C6 witness: the activation theorem applied to the File → Open tree
in the scenario state, at the submenu node (node 0, where the forwarded
`enter` is handled locally): the callback list is exactly [1] and both
nodes end closed. -/
theorem enter_activates_witness :
    (onKeyLocal T6c 20 20 s6c2 0 .enter).2.2 = [1] ∧
    (onKeyLocal T6c 20 20 s6c2 0 .enter).1.enb 0 = false ∧
    (onKeyLocal T6c 20 20 s6c2 0 .enter).1.enb 1 = false := by
  have h := enter_activates 3
    [("File", SpecVal.subV [("Open", SpecVal.cbV 1)])] T6c rfl 20 20 s6c2 0
  have h2 := h.2.1 1 (by decide) (by decide) rfl rfl
  exact ⟨h2.1, h2.2 0 (by decide), h2.2 1 (by decide)⟩


end Batop
